import Mathlib

/-!
Verification of the qgrep chunked store (src/src/build.cpp, src/src/search.cpp).

Shallow embedding conventions:
* Byte strings are `List Nat` (one `Nat` per byte); `10` is `'\n'`, `13` is `'\r'`,
  `97` is `'a'`.
* `std::list<File> pendingFiles` is a `List File` with the C++ front at the head.
* A `Blob` (shared slice of a byte buffer) is modelled by the byte list it denotes;
  `splitPrefix`'s offset/count moves become `List.take` / `List.drop`.
* The chunk-size constant `kChunkSize` lives in constants.hpp, which is not part of
  the sources; the spec gives the reference value 512 KiB.  All packer functions
  take the chunk size `C` as an explicit parameter, and `kChunkSize` is defined
  below from the spec.
* Unbounded C++ `while` loops become fuel-indexed recursions; the fuel chosen at
  each call site is large enough for every terminating execution of the C++ loop
  (each productive iteration shrinks `pendingSize` by at least one byte).
-/

namespace Qgrep

/-- Modelled from the spec: `kChunkSize` is declared in constants.hpp (absent from
src/); §4.1 gives the reference value 512 KiB = 524288 bytes. -/
def kChunkSize : Nat := 524288

/-- One pending file record (build.cpp `BuilderImpl::File`): relative path,
contents slice, 1-based starting line (`0` = from the file start), original file
size and timestamp. -/
structure File where
  name : String
  contents : List Nat
  startLine : Nat
  fileSize : Nat
  timeStamp : Nat
deriving DecidableEq

/-- A materialized chunk (build.cpp `BuilderImpl::Chunk`). -/
structure Chunk where
  files : List File
  totalSize : Nat
deriving DecidableEq

/-- On-disk chunk header (`DataChunkHeader`), fields modelled as `Nat`. -/
structure DataChunkHeader where
  fileCount : Nat
  uncompressedSize : Nat
  compressedSize : Nat
  indexSize : Nat
  indexHashIterations : Nat
deriving DecidableEq

/-- On-disk per-file header (`DataChunkFileHeader`). -/
structure DataChunkFileHeader where
  nameOffset : Nat
  nameLength : Nat
  dataOffset : Nat
  dataSize : Nat
  startLine : Nat
  reserved : Nat
  fileSize : Nat
  timeStamp : Nat
deriving DecidableEq

/-- `sizeof(DataChunkFileHeader)`: six u32 fields and two u64 fields. -/
def sizeofDataChunkFileHeader : Nat := 40

/-- What `BuilderImpl::writeChunk` emits to the output stream.  A chunk built by
the packer is recorded by its logical content (the compression collaborator,
compression.hpp, is out of scope and invertible per the spec round-trip law); a
chunk passed through `appendChunk` is recorded verbatim. -/
inductive OutRecord where
  | builtChunk (chunk : Chunk)
  | rawChunk (header : DataChunkHeader) (index : List Nat) (compressed : List Nat)
deriving DecidableEq

/-- The mutable builder state (build.cpp `BuilderImpl`): the pending queue, its
byte count, and the sequence of chunk records written so far. -/
structure BuilderState where
  pendingFiles : List File
  pendingSize : Nat
  out : List OutRecord
deriving DecidableEq

/-- build.cpp `normalizeEOL`: scan left to right; a `'\r'` is emitted as `'\n'`
and additionally consumes an immediately following `'\n'`; every other byte is
copied.  The one-byte and two-byte list shapes mirror the `i + 1 < size` bounds
check of the C++ loop. -/
def normalizeEOL : List Nat → List Nat
  | [] => []
  | [b] => [if b = 13 then 10 else b]
  | b :: c :: rest =>
    if b = 13 then
      if c = 10 then 10 :: normalizeEOL rest
      else 10 :: normalizeEOL (c :: rest)
    else b :: normalizeEOL (c :: rest)

/-- First half of the spec's wording: replace each two-byte sequence `\r\n` by
the single byte `\n`, scanning left to right. -/
def collapseCRLF : List Nat → List Nat
  | [] => []
  | [b] => [b]
  | b :: c :: rest =>
    if b = 13 ∧ c = 10 then 10 :: collapseCRLF rest
    else b :: collapseCRLF (c :: rest)

/-- The spec's EOL normalization, stated as written: each `\r\n` becomes `\n`,
then each remaining lone `\r` becomes `\n`; every other byte is left unchanged
in its original order, and no other byte is introduced or removed. -/
def normalizeEOLSpec (l : List Nat) : List Nat :=
  (collapseCRLF l).map (fun b => if b = 13 then 10 else b)

/-! ## The chunk packer (build.cpp) -/

/-- build.cpp `skipByLines`, accumulator form of the C++ loop: `i` is the index
of the next byte, `acc` the running `(last newline index + 1, newline count)`
result, overwritten whenever a `'\n'` is seen. -/
def skipByLinesAux : List Nat → Nat → Nat × Nat → Nat × Nat
  | [], _, acc => acc
  | b :: rest, i, acc =>
    skipByLinesAux rest (i + 1) (if b = 10 then (i + 1, acc.2 + 1) else acc)

/-- build.cpp `skipByLines`: position just past the last `'\n'` of `l` (0 when
none) and the number of `'\n'` bytes. -/
def skipByLines (l : List Nat) : Nat × Nat := skipByLinesAux l 0 (0, 0)

/-- build.cpp `skipOneLine`: position just past the first `'\n'`, or the whole
length when there is none. -/
def skipOneLine : List Nat → Nat
  | [] => 0
  | b :: rest => if b = 10 then 1 else 1 + skipOneLine rest

/-- build.cpp `splitPrefix` (renamed): the returned record keeps the first
`size` bytes, the argument record is left with the rest; both keep every other
field. -/
def splitFront (file : File) (size : Nat) : File × File :=
  ({ file with contents := file.contents.take size },
   { file with contents := file.contents.drop size })

/-- build.cpp `appendChunkFile`: move a whole record into the chunk. -/
def appendChunkFile (chunk : Chunk) (file : File) : Chunk :=
  ⟨chunk.files ++ [file], chunk.totalSize + file.contents.length⟩

/-- build.cpp `appendChunkFilePrefix` (renamed): scan the first `remainingSize`
bytes for the last `'\n'`; if found, or if the chunk is still empty, split the
record there (falling back to `skipOneLine` over the whole record and a line
count of 1 when no `'\n'` was found); the remainder, with `startLine` advanced,
is returned to be put back at the front of the pending queue. -/
def appendChunkFileSplit (chunk : Chunk) (file : File) (remainingSize : Nat) :
    Chunk × File :=
  let data := file.contents
  let skip := skipByLines (data.take remainingSize)
  if 0 < skip.1 ∨ chunk.files = [] then
    let skipSize := if 0 < skip.1 then skip.1 else skipOneLine data
    let skipLines := if 0 < skip.1 then skip.2 else 1
    let parts := splitFront file skipSize
    (⟨chunk.files ++ [parts.1], chunk.totalSize + skipSize⟩,
     { parts.2 with startLine := parts.2.startLine + skipLines })
  else (chunk, file)

/-- The grab-pending-files loop of build.cpp `flushChunk(size_t)`: move whole
records while they fit, split the first record that does not, stopping early
when a split is impossible without breaking a line. -/
def flushChunkLoop (size : Nat) : Chunk → List File → Chunk × List File
  | chunk, [] => (chunk, [])
  | chunk, file :: rest =>
    if chunk.totalSize < size then
      if file.contents.length ≤ size - chunk.totalSize then
        flushChunkLoop size (appendChunkFile chunk file) rest
      else
        let split := appendChunkFileSplit chunk file (size - chunk.totalSize)
        (split.1, split.2 :: rest)
    else (chunk, file :: rest)

/-- build.cpp `flushChunk(const Chunk&)`: an empty chunk is discarded, any other
is written to the output stream (index construction and compression are fully
determined by the chunk's contents and are recorded via `OutRecord.builtChunk`).
-/
def flushChunkEmit (chunk : Chunk) (st : BuilderState) : BuilderState :=
  if chunk.files = [] then st
  else { st with out := st.out ++ [OutRecord.builtChunk chunk] }

/-- build.cpp `flushChunk(size_t size)`: build a chunk of at most `size` bytes
from the front of the pending queue, subtract what was taken, and emit it. -/
def flushChunkSize (size : Nat) (st : BuilderState) : BuilderState :=
  let r := flushChunkLoop size ⟨[], 0⟩ st.pendingFiles
  flushChunkEmit r.1
    { st with pendingFiles := r.2, pendingSize := st.pendingSize - r.1.totalSize }

/-- build.cpp `flushIfNeeded` as a fuel-indexed loop: while
`pendingSize ≥ 2 * C`, flush a chunk of size `C`. -/
def flushIfNeededFuel (C : Nat) : Nat → BuilderState → BuilderState
  | 0, st => st
  | fuel + 1, st =>
    if C * 2 ≤ st.pendingSize then flushIfNeededFuel C fuel (flushChunkSize C st)
    else st

/-- build.cpp `flushIfNeeded`.  The fuel `pendingSize + 1` covers every
terminating run of the C++ loop, since each iteration that makes progress
removes at least one pending byte. -/
def flushIfNeeded (C : Nat) (st : BuilderState) : BuilderState :=
  flushIfNeededFuel C (st.pendingSize + 1) st

/-- build.cpp `flush` as a fuel-indexed loop: while `pendingSize > 0`, flush a
chunk of size `C`. -/
def flushAllFuel (C : Nat) : Nat → BuilderState → BuilderState
  | 0, st => st
  | fuel + 1, st =>
    if 0 < st.pendingSize then flushAllFuel C fuel (flushChunkSize C st)
    else st

/-- build.cpp `flush` (run by `Builder::flush` and the `Builder` destructor). -/
def flushAll (C : Nat) (st : BuilderState) : BuilderState :=
  flushAllFuel C (st.pendingSize + 1) st

/-- Append `data` to the contents of the last record of the queue
(the in-place growth branch of build.cpp `appendFilePart`). -/
def extendBack (data : List Nat) : List File → List File
  | [] => []
  | [f] => [{ f with contents := f.contents ++ data }]
  | f :: rest => f :: extendBack data rest

/-- build.cpp `appendFilePart`: extend the last pending record when it is the
same file, otherwise enqueue a new record; then flush grown pending data. -/
def appendFilePart (C : Nat) (path : String) (startLine : Nat) (data : List Nat)
    (lastWriteTime fileSize : Nat) (st : BuilderState) : BuilderState :=
  let st1 :=
    if st.pendingFiles.getLast?.map File.name = some path then
      { st with pendingFiles := extendBack data st.pendingFiles,
                pendingSize := st.pendingSize + data.length }
    else
      { st with
        pendingFiles := st.pendingFiles ++ [⟨path, data, startLine, fileSize, lastWriteTime⟩],
        pendingSize := st.pendingSize + data.length }
  flushIfNeeded C st1

/-- A project file handed to the builder: path, raw bytes, mtime, size. -/
structure InputFile where
  name : String
  raw : List Nat
  lastWriteTime : Nat
  fileSize : Nat
deriving DecidableEq

/-- build.cpp `appendFile` given the file's raw bytes: `readFile` normalizes
EOLs; the UTF-8 conversion collaborator (encoding.hpp, out of scope per the
spec: a pure byte-in/byte-out transform) is modelled as the identity. -/
def appendFileBytes (C : Nat) (f : InputFile) (st : BuilderState) : BuilderState :=
  appendFilePart C f.name 0 (normalizeEOL f.raw) f.lastWriteTime f.fileSize st

/-- A fresh `BuilderImpl`. -/
def initialState : BuilderState := ⟨[], 0, []⟩

/-- build.cpp `buildProject` restricted to the packer: append every project
file in order, then flush the remainder (the `Builder` destructor). -/
def buildStore (C : Nat) (inputs : List InputFile) : BuilderState :=
  flushAll C (inputs.foldl (fun st f => appendFileBytes C f st) initialState)

/-! ## Opaque chunk pass-through (build.cpp `appendChunk`, `writeChunk`) -/

/-- build.cpp `writeChunk(const DataChunkHeader&, ...)`: write the pre-built
header, index bytes and compressed payload verbatim to the output stream. -/
def writeChunkRaw (header : DataChunkHeader) (compressedData index : List Nat)
    (st : BuilderState) : BuilderState :=
  { st with out := st.out ++ [OutRecord.rawChunk header index compressedData] }

/-- The part of build.cpp `appendChunk` after its initial `flushIfNeeded()`
call: the size checks against `kChunkMaxSize = C*3/2` and
`kChunkMinSize = kChunkMaxSize/2`, the optional halving pre-flush, the final
flush of all pending bytes, and the verbatim write of the pre-built chunk. -/
def appendChunkAfterFlush (C : Nat) (header : DataChunkHeader)
    (compressedData index : List Nat) (st : BuilderState) : Bool × BuilderState :=
  let kChunkMaxSize := C * 3 / 2
  let kChunkMinSize := kChunkMaxSize / 2
  if 0 < st.pendingSize then
    if C * 2 < st.pendingSize then (false, st)
    else if st.pendingSize < kChunkMinSize then (false, st)
    else
      let st1 := if kChunkMaxSize < st.pendingSize
        then flushChunkSize (st.pendingSize / 2) st else st
      let st2 := flushChunkSize st1.pendingSize st1
      (true, writeChunkRaw header compressedData index st2)
  else (true, writeChunkRaw header compressedData index st)

/-- build.cpp `appendChunk`: growth-flush first, then the checked pass-through
write.  (`firstFileIsSuffix` only feeds the statistics printer and is dropped.)
-/
def appendChunk (C : Nat) (header : DataChunkHeader)
    (compressedData index : List Nat) (st : BuilderState) : Bool × BuilderState :=
  appendChunkAfterFlush C header compressedData index (flushIfNeeded C st)

/-! ## Chunk layout (build.cpp `prepareChunkData`) -/

/-- The per-file header records of build.cpp `prepareChunkData`, with running
name and data offsets.  File names are ASCII byte strings; `String.length` is
their byte count. -/
def chunkFileHeadersAux : List File → Nat → Nat → List DataChunkFileHeader
  | [], _, _ => []
  | f :: rest, nameOffset, dataOffset =>
    ⟨nameOffset, f.name.length, dataOffset, f.contents.length, f.startLine, 0,
      f.fileSize, f.timeStamp⟩ ::
      chunkFileHeadersAux rest (nameOffset + f.name.length)
        (dataOffset + f.contents.length)

/-- build.cpp `getChunkNameTotalSize`. -/
def getChunkNameTotalSize (chunk : Chunk) : Nat :=
  (chunk.files.map (fun f => f.name.length)).sum

/-- build.cpp `getChunkDataTotalSize`. -/
def getChunkDataTotalSize (chunk : Chunk) : Nat :=
  (chunk.files.map (fun f => f.contents.length)).sum

/-- The `DataChunkFileHeader` array at the start of a materialized chunk
buffer: names start right after the headers, data right after the names. -/
def chunkFileHeaderList (chunk : Chunk) : List DataChunkFileHeader :=
  let headerSize := sizeofDataChunkFileHeader * chunk.files.length
  chunkFileHeadersAux chunk.files headerSize
    (headerSize + getChunkNameTotalSize chunk)

/-- Total size of the uncompressed chunk buffer
(`headerSize + nameSize + dataSize` in `prepareChunkData`). -/
def chunkUncompressedSize (chunk : Chunk) : Nat :=
  sizeofDataChunkFileHeader * chunk.files.length + getChunkNameTotalSize chunk
    + getChunkDataTotalSize chunk

/-! ## Observing the records of one file across the output stream -/

/-- The `(startLine, contents)` pairs of the records of file `nm` inside one
file list, in order. -/
def recsOfFiles (nm : String) (fs : List File) : List (Nat × List Nat) :=
  (fs.filter (fun f => f.name = nm)).map (fun f => (f.startLine, f.contents))

/-- The files stored in one written chunk record (none for a pass-through
chunk, whose interior the builder never inspects). -/
def outChunkFiles : OutRecord → List File
  | OutRecord.builtChunk c => c.files
  | OutRecord.rawChunk _ _ _ => []

/-- All records of file `nm` across the written chunks, in stream order. -/
def fileRecords (nm : String) (st : BuilderState) : List (Nat × List Nat) :=
  (st.out.map (fun r => recsOfFiles nm (outChunkFiles r))).flatten

/-- The records of file `nm` still pending, in queue order. -/
def pendingRecords (nm : String) (st : BuilderState) : List (Nat × List Nat) :=
  recsOfFiles nm st.pendingFiles

/-! ## Bloom index hash count (build.cpp `getIndexHashIterations`) -/

/-- The exact real value the spec's formula is built from: the source's decimal
constant `0.693147181` times `m = (indexSize * 8) mod 2^32` filter bits over
`n = itemCount` keys, as a rational. -/
def indexHashExact (indexSize itemCount : Nat) : ℚ :=
  693147181 / 1000000000 * ((indexSize * 8 % 2 ^ 32 : Nat) : ℚ) / (itemCount : ℚ)

/-- build.cpp `getIndexHashIterations`.  `m = indexSize * 8` is computed in
`unsigned int`, hence the reduction mod `2^32`.  The IEEE-double expression
`0.693147181 * (double)m / (double)n` is modelled nondeterministically: the
compile-time constant is some value within relative error `2^-53` of the
decimal literal (which covers its nearest-double representation, half an ulp
away), and each arithmetic step (`*`, then `/`) yields some value within the
round-to-nearest relative error bound `2^-53` of its exact result — the
IEEE-754 guarantee for normal-range doubles (the `(double)` casts of the two
`unsigned int` operands are exact, both being below `2^53`).  The comparisons
of the final `double` with 1 and 16 and the truncating
`static_cast<unsigned int>` follow the source; `n == 0` short-circuits to 1.
The proposition holds of every value the C++ call can return. -/
def getIndexHashIterations (indexSize itemCount : Nat) (k : Nat) : Prop :=
  if itemCount = 0 then k = 1
  else
    ∃ c p1 p2 : ℚ,
      |c - 693147181 / 1000000000| ≤ 693147181 / 1000000000 / 2 ^ 53 ∧
      |p1 - c * ((indexSize * 8 % 2 ^ 32 : Nat) : ℚ)| ≤
        |c * ((indexSize * 8 % 2 ^ 32 : Nat) : ℚ)| / 2 ^ 53 ∧
      |p2 - p1 / (itemCount : ℚ)| ≤ |p1 / (itemCount : ℚ)| / 2 ^ 53 ∧
      k = if p2 < 1 then 1 else if p2 > 16 then 16 else (⌊p2⌋).toNat

/-! ## The scan worker (search.cpp `processFile`, `processChunk`)

The regex engine is an out-of-scope collaborator (regex.hpp): a `matcher`
models `Regex::rangeSearch` applied to the remaining byte range, returning
`some (offset, size)` for the first match inside it, relative to the range.
`rangePrepare` may case-fold a copy of the bytes, which preserves positions
and newlines, so line structure is read off the original data. -/

/-- search.cpp `countLines` over a byte range. -/
def countLines (l : List Nat) : Nat := l.count 10

/-- search.cpp `findLineStart`: walk backwards from position `p` of the range
`l` to the byte just after the previous `'\n'`, or to the range start. -/
def findLineStart (l : List Nat) : Nat → Nat
  | 0 => 0
  | q + 1 => if l[q]? = some 10 then q + 1 else findLineStart l q

/-- Position of the first `'\n'` of `l`, or `l.length` if none. -/
def findLineEndFrom : List Nat → Nat
  | [] => 0
  | b :: rest => if b = 10 then 0 else findLineEndFrom rest + 1

/-- search.cpp `findLineEnd`: first `'\n'` at or after position `p`, or the
end of the range. -/
def findLineEnd (l : List Nat) (p : Nat) : Nat := p + findLineEndFrom (l.drop p)

/-- One call of search.cpp `processMatch`, keeping everything the formatted
line depends on: reported line and column, the match position, and the
enclosing line bounds `[lineStart, lineEnd)`. -/
structure MatchInfo where
  line : Nat
  column : Nat
  matchOffset : Nat
  matchSize : Nat
  lineStart : Nat
  lineEnd : Nat
deriving DecidableEq

/-- The match loop of search.cpp `processFile`: `pos` is the offset of `begin`
inside the record's data, `line` the running line counter (seeded with the
record's `startLine`).  Each reported match advances `begin` to the byte after
the end of the matched line.  The fuel `data.length + 1` bounds the iteration
count of every run of the C++ loop, which strictly advances `begin`. -/
def processFileLoop (matcher : List Nat → Option (Nat × Nat)) (data : List Nat) :
    Nat → Nat → Nat → List MatchInfo
  | 0, _, _ => []
  | fuel + 1, pos, line =>
    match matcher (data.drop pos) with
    | none => []
    | some (o, s) =>
      let a := pos + o
      let line2 := line + 1 + countLines ((data.drop pos).take o)
      let lbeg := pos + findLineStart (data.drop pos) o
      let lend := findLineEnd data (a + s)
      let mi : MatchInfo := ⟨line2, a - lbeg + 1, a, s, lbeg, lend⟩
      if lend = data.length then [mi]
      else mi :: processFileLoop matcher data fuel (lend + 1) line2

/-- search.cpp `processFile` on one file record. -/
def processFile (matcher : List Nat → Option (Nat × Nat)) (data : List Nat)
    (startLine : Nat) : List MatchInfo :=
  processFileLoop matcher data (data.length + 1) 0 startLine

/-- Does `pat` occur at the head of `l`? -/
def litHere : List Nat → List Nat → Bool
  | [], _ => true
  | _ :: _, [] => false
  | p :: ps, x :: xs => p == x && litHere ps xs

/-- Index of the first occurrence of `pat` in `l`. -/
def litFind (pat : List Nat) : List Nat → Option Nat
  | [] => if litHere pat [] then some 0 else none
  | x :: rest =>
    if litHere pat (x :: rest) then some 0
    else
      match litFind pat rest with
      | some i => some (i + 1)
      | none => none

/-- A literal-pattern `rangeSearch` (the `SO_LITERAL` mode of the regex
collaborator): leftmost occurrence of the literal byte string `pat`. -/
def litMatcher (pat : List Nat) (l : List Nat) : Option (Nat × Nat) :=
  (litFind pat l).map (fun i => (i, pat.length))

/-- A well-formed `rangeSearch` collaborator reports matches inside the range
it was given. -/
def matcherWF (m : List Nat → Option (Nat × Nat)) : Prop :=
  ∀ l o s, m l = some (o, s) → o + s ≤ l.length

/-- No match reported by `m` contains a `'\n'` byte. -/
def matcherLineLocal (m : List Nat → Option (Nat × Nat)) : Prop :=
  ∀ l o s, m l = some (o, s) → ((l.drop o).take s).count 10 = 0

/-! ## The ordered emitter (spec §4.5; orderedoutput.hpp is not in src/) -/

/-- Modelled from the spec: the ordered emitter buffers the finished text of
each chunk under its 0-based chunk index and releases buffered chunks to the
terminal strictly in ascending index order (`currentChunk` is the release
cursor). -/
structure OrderedOutput where
  currentChunk : Nat
  chunks : List (Nat × List Nat)
  result : List Nat
deriving DecidableEq

/-- Modelled from the spec: after a chunk finishes, release consecutive
buffered chunks starting at the cursor.  Fuel bounds the number of releases by
the number of buffered chunks. -/
def ooFlush : Nat → OrderedOutput → OrderedOutput
  | 0, st => st
  | fuel + 1, st =>
    match st.chunks.find? (fun p => p.1 == st.currentChunk) with
    | some p =>
      ooFlush fuel
        { currentChunk := st.currentChunk + 1,
          chunks := st.chunks.filter (fun q => q.1 != st.currentChunk),
          result := st.result ++ p.2 }
    | none => st

/-- Modelled from the spec: `OrderedOutput::end` for a worker that produced
`data` as the whole output of chunk `i` (its `begin`/`write` calls appended to
a private sink). -/
def ooEnd (st : OrderedOutput) (i : Nat) (data : List Nat) : OrderedOutput :=
  ooFlush (st.chunks.length + 1) { st with chunks := st.chunks ++ [(i, data)] }

/-- One query run: `texts` lists each chunk's formatted output in on-disk chunk
order with indices assigned monotonically from 0 in read order
(search.cpp `searchProject`); `order` is the order in which the worker pool
happens to complete the chunks. -/
def ooRun (texts : List (List Nat)) (order : List Nat) : OrderedOutput :=
  order.foldl (fun st i => ooEnd st i (texts.getD i [])) ⟨0, [], []⟩

/-- Invariant of the ordered emitter relating its state to the set `done` of
chunk indices whose workers have already called `end`: everything below the
cursor has been released in order, and exactly the finished chunks at or above
the cursor are buffered, each with its own text. -/
def ooInv (texts : List (List Nat)) (done : List Nat) (st : OrderedOutput) : Prop :=
  st.result = (texts.take st.currentChunk).flatten ∧
  (∀ p ∈ st.chunks, p.2 = texts.getD p.1 []) ∧
  (∀ i : Nat, i ∈ st.chunks.map Prod.fst ↔ (i ∈ done ∧ st.currentChunk ≤ i)) ∧
  (∀ i : Nat, i < st.currentChunk → i ∈ done) ∧
  (∀ i : Nat, i ∈ done → i < texts.length)

/-! ## Start-line chains of split files -/

/-- The relation produced by the packer's split step between two consecutive
records of one file: the next record starts at the previous record's start
line advanced by its newline count, except that a record without any newline
(the long-line fallback) advances by 1. -/
def recStep (a b : Nat × List Nat) : Prop := b.1 = a.1 + max 1 (a.2.count 10)

/-- All consecutive records of the list are related by `recStep`. -/
def chainRecords (l : List (Nat × List Nat)) : Prop := List.Chain' recStep l

/-- `chainRecords` anchored at start line 0 (a file is always first appended
with `startLine = 0`). -/
def chainFrom0 (l : List (Nat × List Nat)) : Prop :=
  chainRecords l ∧ ∀ a ∈ l.head?, a.1 = 0

/-- All records of file `nm`, written ones first and still-pending ones after. -/
def combinedRecords (nm : String) (st : BuilderState) : List (Nat × List Nat) :=
  fileRecords nm st ++ pendingRecords nm st

/-- The effect one packing pass can have on the record list of a single file:
either untouched, or its last record `r` is split into a flushed prefix `p`
and a pending remainder `q` whose start line advances per `recStep`. -/
inductive SplitStep : List (Nat × List Nat) → List (Nat × List Nat) → Prop where
  | same (l : List (Nat × List Nat)) : SplitStep l l
  | split (A : List (Nat × List Nat)) (r p q : Nat × List Nat)
      (hp : p.1 = r.1) (hpq : p.2 ++ q.2 = r.2)
      (hq : q.1 = r.1 + max 1 (p.2.count 10)) :
      SplitStep (A ++ [r]) (A ++ [p, q])

/-- The builder invariant behind claim C9: every file's records (written plus
pending) form a `recStep` chain from start line 0, and pending file names are
distinct. -/
def goodState (st : BuilderState) : Prop :=
  (∀ nm : String, chainFrom0 (combinedRecords nm st)) ∧
  (st.pendingFiles.map File.name).Nodup

/-- Total content bytes of a pending queue (the quantity `pendingSize`
tracks). -/
def sumBytes (fs : List File) : Nat := (fs.map (fun f => f.contents.length)).sum

/-- `pendingSize` agrees with the actual pending contents — an invariant of
every reachable `BuilderImpl` state, used to show the flush loops drain. -/
def sizeAccurate (st : BuilderState) : Prop :=
  st.pendingSize = sumBytes st.pendingFiles

/-- The possible record shapes of one newline-free file `nm` of content
`data` during a build: still pending whole; flushed whole by the long-line
fallback with the empty continuation record (start line 1) pending; or with
that continuation record also written into a later chunk. -/
def nlShape (nm : String) (data : List Nat) (st : BuilderState) : Prop :=
  (fileRecords nm st = [] ∧ pendingRecords nm st = [(0, data)]) ∨
  (fileRecords nm st = [(0, data)] ∧ pendingRecords nm st = [(1, [])]) ∨
  (fileRecords nm st = [(0, data), (1, [])] ∧ pendingRecords nm st = [])

/-! # Theorems -/

/-- C5: EOL normalization replaces each `\r\n` by `\n` and each remaining lone
`\r` by `\n`, and leaves every other byte unchanged in its original order,
neither introducing nor removing any other byte: `normalizeEOL` agrees with the
spec's transformation on every input byte string. -/
theorem C5_normalizeEOL (l : List Nat) : normalizeEOL l = normalizeEOLSpec l := by
  induction l using normalizeEOL.induct with
  | case1 => rfl
  | case2 b =>
    by_cases hb : b = 13 <;>
      simp [normalizeEOL, normalizeEOLSpec, collapseCRLF, hb]
  | case3 rest ih =>
    simp [normalizeEOL, normalizeEOLSpec, collapseCRLF, ih]
  | case4 c rest hc ih =>
    simp [normalizeEOL, normalizeEOLSpec, collapseCRLF, hc, ih]
  | case5 b c rest hb ih =>
    simp [normalizeEOL, normalizeEOLSpec, collapseCRLF, hb, ih]

/-! ## Fuel plumbing for the flush loops -/

theorem flushIfNeededFuel_done (C : Nat) (fuel : Nat) (st : BuilderState)
    (h : st.pendingSize < C * 2) : flushIfNeededFuel C fuel st = st := by
  cases fuel <;>
    simp [flushIfNeededFuel, show ¬ C * 2 ≤ st.pendingSize from by omega]

theorem flushIfNeededFuel_step (C fuel : Nat) (st : BuilderState)
    (h : C * 2 ≤ st.pendingSize) :
    flushIfNeededFuel C (fuel + 1) st = flushIfNeededFuel C fuel (flushChunkSize C st) := by
  simp [flushIfNeededFuel, h]

theorem flushIfNeededFuel_stable (C : Nat) : ∀ fuel fuel' : Nat, ∀ st : BuilderState,
    fuel ≤ fuel' → (flushIfNeededFuel C fuel st).pendingSize < C * 2 →
    flushIfNeededFuel C fuel' st = flushIfNeededFuel C fuel st
  | 0, fuel', st, _, h => by
    simpa [flushIfNeededFuel] using flushIfNeededFuel_done C fuel' st (by simpa [flushIfNeededFuel] using h)
  | fuel + 1, fuel', st, hle, h => by
    by_cases hc : C * 2 ≤ st.pendingSize
    · match fuel', hle with
      | fuel2 + 1, hle =>
        rw [flushIfNeededFuel_step C fuel2 st hc, flushIfNeededFuel_step C fuel st hc]
        rw [flushIfNeededFuel_step C fuel st hc] at h
        exact flushIfNeededFuel_stable C fuel fuel2 _ (Nat.succ_le_succ_iff.mp hle) h
    · have hlt : st.pendingSize < C * 2 := by omega
      rw [flushIfNeededFuel_done C fuel' st hlt, flushIfNeededFuel_done C (fuel + 1) st hlt]

theorem flushIfNeeded_done (C : Nat) (st : BuilderState)
    (h : st.pendingSize < C * 2) : flushIfNeeded C st = st :=
  flushIfNeededFuel_done C _ st h

theorem flushIfNeeded_eq_of_fuel (C : Nat) (fuel : Nat) (st : BuilderState)
    (hle : fuel ≤ st.pendingSize + 1)
    (h : (flushIfNeededFuel C fuel st).pendingSize < C * 2) :
    flushIfNeeded C st = flushIfNeededFuel C fuel st :=
  flushIfNeededFuel_stable C fuel (st.pendingSize + 1) st hle h

theorem flushAllFuel_done (C : Nat) (fuel : Nat) (st : BuilderState)
    (h : st.pendingSize = 0) : flushAllFuel C fuel st = st := by
  cases fuel <;> simp [flushAllFuel, h]

theorem flushAllFuel_step (C fuel : Nat) (st : BuilderState)
    (h : 0 < st.pendingSize) :
    flushAllFuel C (fuel + 1) st = flushAllFuel C fuel (flushChunkSize C st) := by
  simp [flushAllFuel, h]

theorem flushAllFuel_stable (C : Nat) : ∀ fuel fuel' : Nat, ∀ st : BuilderState,
    fuel ≤ fuel' → (flushAllFuel C fuel st).pendingSize = 0 →
    flushAllFuel C fuel' st = flushAllFuel C fuel st
  | 0, fuel', st, _, h => by
    simpa [flushAllFuel] using flushAllFuel_done C fuel' st (by simpa [flushAllFuel] using h)
  | fuel + 1, fuel', st, hle, h => by
    by_cases hc : 0 < st.pendingSize
    · match fuel', hle with
      | fuel2 + 1, hle =>
        rw [flushAllFuel_step C fuel2 st hc, flushAllFuel_step C fuel st hc]
        rw [flushAllFuel_step C fuel st hc] at h
        exact flushAllFuel_stable C fuel fuel2 _ (Nat.succ_le_succ_iff.mp hle) h
    · have hz : st.pendingSize = 0 := by omega
      rw [flushAllFuel_done C fuel' st hz, flushAllFuel_done C (fuel + 1) st hz]

theorem flushAll_eq_of_fuel (C : Nat) (fuel : Nat) (st : BuilderState)
    (hle : fuel ≤ st.pendingSize + 1)
    (h : (flushAllFuel C fuel st).pendingSize = 0) :
    flushAll C st = flushAllFuel C fuel st :=
  flushAllFuel_stable C fuel (st.pendingSize + 1) st hle h

/-! ## Small steps of the packing loop -/

theorem flushChunkLoop_done (size : Nat) (chunk : Chunk) (pending : List File)
    (h : ¬ chunk.totalSize < size) : flushChunkLoop size chunk pending = (chunk, pending) := by
  cases pending <;> simp [flushChunkLoop, h]

/-- Flushing a chunk whose requested size is met exactly by the first pending
record: the record moves whole into its own chunk. -/
theorem flushChunkSize_exact_head (size : Nat) (h0 : 0 < size) (f : File)
    (rest : List File) (ps : Nat) (out : List OutRecord)
    (hlen : f.contents.length = size) :
    flushChunkSize size ⟨f :: rest, ps, out⟩ =
      ⟨rest, ps - size, out ++ [OutRecord.builtChunk ⟨[f], size⟩]⟩ := by
  have hloop : flushChunkLoop size ⟨[], 0⟩ (f :: rest) = (⟨[f], size⟩, rest) := by
    simp only [flushChunkLoop]
    rw [if_pos (show (⟨[], 0⟩ : Chunk).totalSize < size from h0),
      if_pos (show f.contents.length ≤ size - (⟨[], 0⟩ : Chunk).totalSize by simp [hlen])]
    rw [show appendChunkFile ⟨[], 0⟩ f = ⟨[f], size⟩ by simp [appendChunkFile, hlen]]
    exact flushChunkLoop_done size ⟨[f], size⟩ rest (by simp)
  simp [flushChunkSize, hloop, flushChunkEmit]

/-! ## Claims C7, C8, C10: the `appendChunk` pass-through -/

/-- C7: whenever, after growth flushing, the pending size is strictly between 0
and `kChunkMinSize = (C*3/2)/2` (0.75·C for the reference chunk size),
`appendChunk` returns the recoverable failure `false` and writes neither the
pending data nor the caller's pre-built chunk: the state is exactly the one
growth flushing left. -/
theorem C7_appendChunk_rejects_small_pending (C : Nat) (header : DataChunkHeader)
    (cdata idx : List Nat) (st : BuilderState)
    (h0 : 0 < (flushIfNeeded C st).pendingSize)
    (h1 : (flushIfNeeded C st).pendingSize < C * 3 / 2 / 2) :
    appendChunk C header cdata idx st = (false, flushIfNeeded C st) := by
  have h2 : ¬ C * 2 < (flushIfNeeded C st).pendingSize := by omega
  simp [appendChunk, appendChunkAfterFlush, h0, h1, h2]

theorem C7_witness :
    0 < (flushIfNeeded 4 ⟨[⟨"f", [97, 97], 0, 2, 0⟩], 2, []⟩).pendingSize ∧
    (flushIfNeeded 4 ⟨[⟨"f", [97, 97], 0, 2, 0⟩], 2, []⟩).pendingSize < 4 * 3 / 2 / 2 ∧
    appendChunk 4 ⟨1, 2, 2, 0, 0⟩ [5] [7] ⟨[⟨"f", [97, 97], 0, 2, 0⟩], 2, []⟩ =
      (false, flushIfNeeded 4 ⟨[⟨"f", [97, 97], 0, 2, 0⟩], 2, []⟩) :=
  ⟨by decide, by decide,
    C7_appendChunk_rejects_small_pending 4 ⟨1, 2, 2, 0, 0⟩ [5] [7]
      ⟨[⟨"f", [97, 97], 0, 2, 0⟩], 2, []⟩ (by decide) (by decide)⟩

/-- C10: when the pending size is 0 after growth flushing, `appendChunk` makes
no size check at all, writes the caller's pre-built chunk record (header, index
bytes, compressed payload) verbatim, and returns `true`. -/
theorem C10_appendChunk_empty_pending (C : Nat) (header : DataChunkHeader)
    (cdata idx : List Nat) (st : BuilderState)
    (h : (flushIfNeeded C st).pendingSize = 0) :
    appendChunk C header cdata idx st =
      (true, writeChunkRaw header cdata idx (flushIfNeeded C st)) := by
  simp [appendChunk, appendChunkAfterFlush, h]

theorem C10_witness :
    (flushIfNeeded 4 ⟨[], 0, []⟩).pendingSize = 0 ∧
    appendChunk 4 ⟨2, 100, 20, 4, 3⟩ [1, 2, 3] [9] ⟨[], 0, []⟩ =
      (true, writeChunkRaw ⟨2, 100, 20, 4, 3⟩ [1, 2, 3] [9] (flushIfNeeded 4 ⟨[], 0, []⟩)) :=
  ⟨by decide,
    C10_appendChunk_empty_pending 4 ⟨2, 100, 20, 4, 3⟩ [1, 2, 3] [9] ⟨[], 0, []⟩ (by decide)⟩

/-- Helper for the C8 counterexample: from a pending queue of three records of
exactly `C` bytes each (`pendingSize = 3·C > 2·C`), `appendChunk` first growth
flushes two `C`-byte chunks, then accepts: it flushes the remaining pending
chunk and writes the caller's pre-built chunk, returning `true`. -/
theorem appendChunk_three_exact (C : Nat) (hC : 0 < C) (f1 f2 f3 : File)
    (h1 : f1.contents.length = C) (h2 : f2.contents.length = C)
    (h3 : f3.contents.length = C) (header : DataChunkHeader) (cd ix : List Nat) :
    appendChunk C header cd ix ⟨[f1, f2, f3], C * 3, []⟩ =
      (true, ⟨[], 0,
        [OutRecord.builtChunk ⟨[f1], C⟩, OutRecord.builtChunk ⟨[f2], C⟩,
         OutRecord.builtChunk ⟨[f3], C⟩, OutRecord.rawChunk header ix cd]⟩) := by
  have s1 : flushChunkSize C ⟨[f1, f2, f3], C * 3, []⟩ =
      ⟨[f2, f3], C * 3 - C, [OutRecord.builtChunk ⟨[f1], C⟩]⟩ :=
    flushChunkSize_exact_head C hC f1 [f2, f3] (C * 3) [] h1
  have s2 : flushChunkSize C ⟨[f2, f3], C * 3 - C, [OutRecord.builtChunk ⟨[f1], C⟩]⟩ =
      ⟨[f3], C * 3 - C - C,
        [OutRecord.builtChunk ⟨[f1], C⟩, OutRecord.builtChunk ⟨[f2], C⟩]⟩ :=
    flushChunkSize_exact_head C hC f2 [f3] (C * 3 - C) [OutRecord.builtChunk ⟨[f1], C⟩] h2
  have fuel3 : flushIfNeededFuel C 3 ⟨[f1, f2, f3], C * 3, []⟩ =
      ⟨[f3], C * 3 - C - C,
        [OutRecord.builtChunk ⟨[f1], C⟩, OutRecord.builtChunk ⟨[f2], C⟩]⟩ := by
    rw [show (3 : Nat) = 2 + 1 from rfl,
      flushIfNeededFuel_step C 2 _ (show C * 2 ≤ C * 3 from by omega), s1,
      show (2 : Nat) = 1 + 1 from rfl,
      flushIfNeededFuel_step C 1 _ (show C * 2 ≤ C * 3 - C from by omega), s2]
    exact flushIfNeededFuel_done C 1 _ (show C * 3 - C - C < C * 2 from by omega)
  have hflush : flushIfNeeded C ⟨[f1, f2, f3], C * 3, []⟩ =
      ⟨[f3], C, [OutRecord.builtChunk ⟨[f1], C⟩, OutRecord.builtChunk ⟨[f2], C⟩]⟩ := by
    have := flushIfNeeded_eq_of_fuel C 3 ⟨[f1, f2, f3], C * 3, []⟩
      (show 3 ≤ C * 3 + 1 from by omega)
      (by rw [fuel3]; show C * 3 - C - C < C * 2; omega)
    rw [fuel3] at this
    rw [this]
    congr 1
    omega
  have s3 : flushChunkSize C
      ⟨[f3], C, [OutRecord.builtChunk ⟨[f1], C⟩, OutRecord.builtChunk ⟨[f2], C⟩]⟩ =
      ⟨[], C - C,
        [OutRecord.builtChunk ⟨[f1], C⟩, OutRecord.builtChunk ⟨[f2], C⟩,
         OutRecord.builtChunk ⟨[f3], C⟩]⟩ :=
    flushChunkSize_exact_head C hC f3 [] C
      [OutRecord.builtChunk ⟨[f1], C⟩, OutRecord.builtChunk ⟨[f2], C⟩] h3
  rw [appendChunk, hflush]
  have hc1 : ¬ C * 2 < (⟨[f3], C, [OutRecord.builtChunk ⟨[f1], C⟩,
      OutRecord.builtChunk ⟨[f2], C⟩]⟩ : BuilderState).pendingSize := by
    show ¬ C * 2 < C; omega
  have hc2 : ¬ (⟨[f3], C, [OutRecord.builtChunk ⟨[f1], C⟩,
      OutRecord.builtChunk ⟨[f2], C⟩]⟩ : BuilderState).pendingSize < C * 3 / 2 / 2 := by
    show ¬ C < C * 3 / 2 / 2; omega
  have hc3 : ¬ C * 3 / 2 < (⟨[f3], C, [OutRecord.builtChunk ⟨[f1], C⟩,
      OutRecord.builtChunk ⟨[f2], C⟩]⟩ : BuilderState).pendingSize := by
    show ¬ C * 3 / 2 < C; omega
  simp only [appendChunkAfterFlush, hc1, hc2, hc3, if_false, if_neg, hC, if_pos]
  rw [s3]
  simp [writeChunkRaw, Nat.sub_self]

/-- C8 counterexample: with the reference chunk size `C = kChunkSize`, a
builder state holding three pending one-line files of exactly `C` bytes each
(`pending_size = 3·C > 2·C`) makes `appendChunk` return `true` and write four
chunk records, refuting the claim that such a call fails and writes nothing:
the `> 2·C` check only runs after the initial growth flush has already reduced
the pending size below `2·C`. -/
theorem C8_counterexample :
    kChunkSize * 2 < (⟨[
      ⟨"f1", List.replicate (kChunkSize - 1) 97 ++ [10], 0, kChunkSize, 0⟩,
      ⟨"f2", List.replicate (kChunkSize - 1) 97 ++ [10], 0, kChunkSize, 0⟩,
      ⟨"f3", List.replicate (kChunkSize - 1) 97 ++ [10], 0, kChunkSize, 0⟩],
      kChunkSize * 3, []⟩ : BuilderState).pendingSize ∧
    (appendChunk kChunkSize ⟨1, 9, 3, 0, 0⟩ [5] [8] ⟨[
      ⟨"f1", List.replicate (kChunkSize - 1) 97 ++ [10], 0, kChunkSize, 0⟩,
      ⟨"f2", List.replicate (kChunkSize - 1) 97 ++ [10], 0, kChunkSize, 0⟩,
      ⟨"f3", List.replicate (kChunkSize - 1) 97 ++ [10], 0, kChunkSize, 0⟩],
      kChunkSize * 3, []⟩).1 = true := by
  have hk : (0 : Nat) < kChunkSize := by norm_num [kChunkSize]
  have hblen : (List.replicate (kChunkSize - 1) 97 ++ [10]).length = kChunkSize := by
    rw [List.length_append, List.length_replicate]
    norm_num [kChunkSize]
  refine ⟨show kChunkSize * 2 < kChunkSize * 3 from by omega, ?_⟩
  rw [appendChunk_three_exact kChunkSize hk _ _ _ hblen hblen hblen ⟨1, 9, 3, 0, 0⟩ [5] [8]]

/-- C8 amended: the `> 2·C` precondition applies to the pending size *after*
the initial growth flush (`flushIfNeeded`), not at the moment `appendChunk` is
called: whenever the post-flush pending size exceeds `2·C`, the remainder of
`appendChunk` fails (returns `false`) writing nothing further. -/
theorem C8_amended (C : Nat) (header : DataChunkHeader) (cdata idx : List Nat)
    (st : BuilderState) (h : C * 2 < st.pendingSize) :
    appendChunkAfterFlush C header cdata idx st = (false, st) := by
  have h0 : 0 < st.pendingSize := by omega
  simp [appendChunkAfterFlush, h, h0]

/-! ## Newline-free byte strings through the packer -/

theorem count_take_zero {l : List Nat} (h : l.count 10 = 0) (k : Nat) :
    (l.take k).count 10 = 0 :=
  Nat.le_zero.mp (h ▸ (List.take_sublist k l).count_le 10)

theorem normalizeEOL_of_no_cr : ∀ l : List Nat, l.count 13 = 0 → normalizeEOL l = l := by
  intro l
  induction l using normalizeEOL.induct with
  | case1 => intro _; rfl
  | case2 b =>
    intro h
    have hb : ¬ b = 13 := by rintro rfl; simp at h
    simp [normalizeEOL, hb]
  | case3 rest ih =>
    intro h; simp at h
  | case4 c rest hc ih =>
    intro h; simp at h
  | case5 b c rest hb ih =>
    intro h
    have h2 : (c :: rest).count 13 = 0 :=
      Nat.le_zero.mp (h ▸ (List.sublist_cons_self b (c :: rest)).count_le 13)
    simp [normalizeEOL, hb, ih h2]

theorem skipByLinesAux_no_nl : ∀ (l : List Nat) (i : Nat) (acc : Nat × Nat),
    l.count 10 = 0 → skipByLinesAux l i acc = acc
  | [], _, _, _ => rfl
  | b :: rest, i, acc, h => by
    have hb : ¬ b = 10 := by rintro rfl; simp at h
    have h2 : rest.count 10 = 0 :=
      Nat.le_zero.mp (h ▸ (List.sublist_cons_self b rest).count_le 10)
    simp [skipByLinesAux, hb, skipByLinesAux_no_nl rest (i + 1) acc h2]

theorem skipByLines_no_nl (l : List Nat) (h : l.count 10 = 0) : skipByLines l = (0, 0) :=
  skipByLinesAux_no_nl l 0 (0, 0) h

theorem skipOneLine_no_nl : ∀ l : List Nat, l.count 10 = 0 → skipOneLine l = l.length
  | [], _ => rfl
  | b :: rest, h => by
    have hb : ¬ b = 10 := by rintro rfl; simp at h
    have h2 : rest.count 10 = 0 :=
      Nat.le_zero.mp (h ▸ (List.sublist_cons_self b rest).count_le 10)
    simp [skipOneLine, hb, skipOneLine_no_nl rest h2]
    omega

/-- Flushing a chunk whose first pending record is a single newline-free line
longer than the requested size: the long-line fallback moves the whole record
into the chunk (splitting at the end of the record since it has no `'\n'`),
leaving behind an empty continuation record with `startLine` advanced by 1. -/
theorem flushChunkSize_long_head (size : Nat) (h0 : 0 < size) (f : File)
    (rest : List File) (ps : Nat) (out : List OutRecord)
    (h10 : f.contents.count 10 = 0) (hlen : size < f.contents.length) :
    flushChunkSize size ⟨f :: rest, ps, out⟩ =
      ⟨{ f with contents := [], startLine := f.startLine + 1 } :: rest,
        ps - f.contents.length,
        out ++ [OutRecord.builtChunk ⟨[f], f.contents.length⟩]⟩ := by
  have hsplit : appendChunkFileSplit ⟨[], 0⟩ f (size - 0) =
      (⟨[f], f.contents.length⟩,
        { f with contents := [], startLine := f.startLine + 1 }) := by
    have hsb : skipByLines (f.contents.take size) = (0, 0) :=
      skipByLines_no_nl _ (count_take_zero h10 size)
    simp [appendChunkFileSplit, hsb, skipOneLine_no_nl f.contents h10, splitFront,
      List.take_length, List.drop_length]
  have hloop : flushChunkLoop size ⟨[], 0⟩ (f :: rest) =
      (⟨[f], f.contents.length⟩,
        { f with contents := [], startLine := f.startLine + 1 } :: rest) := by
    simp only [flushChunkLoop]
    rw [if_pos (show (⟨[], 0⟩ : Chunk).totalSize < size from h0),
      if_neg (show ¬ f.contents.length ≤ size - (⟨[], 0⟩ : Chunk).totalSize by
        show ¬ f.contents.length ≤ size - 0; omega)]
    rw [hsplit]
  simp [flushChunkSize, hloop, flushChunkEmit]

/-- A build whose single input file is one newline-free line longer than the
chunk target `C`: the whole file lands in exactly one chunk (of `data.length`
bytes, which may far exceed `C`), and the builder retains an empty pending
continuation record that is never written (its pending size is 0). -/
theorem buildStore_single_line (C : Nat) (hC : 0 < C) (nm : String)
    (data : List Nat) (t s : Nat) (hnorm : normalizeEOL data = data)
    (h10 : data.count 10 = 0) (hlen : C < data.length) :
    buildStore C [⟨nm, data, t, s⟩] =
      ⟨[⟨nm, [], 1, s, t⟩], 0,
        [OutRecord.builtChunk ⟨[⟨nm, data, 0, s, t⟩], data.length⟩]⟩ := by
  have happend : appendFileBytes C ⟨nm, data, t, s⟩ initialState =
      flushIfNeeded C ⟨[⟨nm, data, 0, s, t⟩], data.length, []⟩ := by
    unfold appendFileBytes appendFilePart initialState
    rw [hnorm]
    simp
  have hfc : flushChunkSize C ⟨[⟨nm, data, 0, s, t⟩], data.length, []⟩ =
      ⟨[⟨nm, [], 1, s, t⟩], 0,
        [OutRecord.builtChunk ⟨[⟨nm, data, 0, s, t⟩], data.length⟩]⟩ := by
    rw [flushChunkSize_long_head C hC ⟨nm, data, 0, s, t⟩ [] data.length [] h10 hlen]
    simp [Nat.sub_self]
  unfold buildStore
  simp only [List.foldl_cons, List.foldl_nil]
  rw [happend]
  by_cases h2C : C * 2 ≤ data.length
  · have e1 : flushIfNeeded C ⟨[⟨nm, data, 0, s, t⟩], data.length, []⟩ =
        ⟨[⟨nm, [], 1, s, t⟩], 0,
          [OutRecord.builtChunk ⟨[⟨nm, data, 0, s, t⟩], data.length⟩]⟩ := by
      have hf1 : flushIfNeededFuel C 1 ⟨[⟨nm, data, 0, s, t⟩], data.length, []⟩ =
          ⟨[⟨nm, [], 1, s, t⟩], 0,
            [OutRecord.builtChunk ⟨[⟨nm, data, 0, s, t⟩], data.length⟩]⟩ := by
        rw [show (1 : Nat) = 0 + 1 from rfl, flushIfNeededFuel_step C 0 _ h2C, hfc]
        rfl
      have := flushIfNeeded_eq_of_fuel C 1 ⟨[⟨nm, data, 0, s, t⟩], data.length, []⟩
        (by show 1 ≤ data.length + 1; omega) (by rw [hf1]; show (0 : Nat) < C * 2; omega)
      rw [hf1] at this
      exact this
    rw [e1]
    unfold flushAll
    exact flushAllFuel_done C _ _ rfl
  · rw [flushIfNeeded_done C _ (show (⟨[⟨nm, data, 0, s, t⟩], data.length, []⟩ :
      BuilderState).pendingSize < C * 2 by show data.length < C * 2; omega)]
    unfold flushAll
    rw [show (⟨[⟨nm, data, 0, s, t⟩], data.length, []⟩ :
        BuilderState).pendingSize + 1 = data.length + 1 from rfl]
    rw [flushAllFuel_step C data.length _ (show 0 < data.length by omega), hfc]
    exact flushAllFuel_done C _ _ rfl

/-! ## Claims C1 and C2: long single-line files -/

/-- C1 counterexample: building with `C = kChunkSize = 512 KiB` from the single
file `big.txt` of 1 MiB of `'a'` (no newline) produces exactly **one** chunk,
not the claimed two: with no `'\n'` anywhere, the fallback in the split path
takes `skipOneLine` over the whole record, i.e. splits at the end of the
record, not at `remaining`. -/
theorem C1_counterexample :
    (buildStore kChunkSize [⟨"big.txt", List.replicate 1048576 97, 0, 1048576⟩]).out.length = 1 ∧
    (buildStore kChunkSize [⟨"big.txt", List.replicate 1048576 97, 0, 1048576⟩]).out.length ≠ 2 := by
  have h := buildStore_single_line kChunkSize (by norm_num [kChunkSize]) "big.txt"
    (List.replicate 1048576 97) 0 1048576
    (normalizeEOL_of_no_cr _ (by rw [List.count_replicate]; norm_num))
    (by rw [List.count_replicate]; norm_num)
    (by rw [List.length_replicate]; norm_num [kChunkSize])
  rw [h]
  exact ⟨rfl, by decide⟩

/-- C1 amended: the 1 MiB single-line `big.txt` with `C = 512 KiB` produces
exactly one chunk whose single file record has `start_line = 0` and
`data_size = 1048576`: since the record contains no `'\n'` at all, the
line-alignment fallback splits at the end of the record (the first `'\n'` past
`remaining`, or the record end), not at `remaining`. -/
theorem C1_amended :
    (buildStore kChunkSize [⟨"big.txt", List.replicate 1048576 97, 0, 1048576⟩]).out =
      [OutRecord.builtChunk ⟨[⟨"big.txt", List.replicate 1048576 97, 0, 1048576, 0⟩], 1048576⟩] ∧
    chunkFileHeaderList ⟨[⟨"big.txt", List.replicate 1048576 97, 0, 1048576, 0⟩], 1048576⟩ =
      [⟨40, 7, 47, 1048576, 0, 0, 1048576, 0⟩] := by
  constructor
  · have h := buildStore_single_line kChunkSize (by norm_num [kChunkSize]) "big.txt"
      (List.replicate 1048576 97) 0 1048576
      (normalizeEOL_of_no_cr _ (by rw [List.count_replicate]; norm_num))
      (by rw [List.count_replicate]; norm_num)
      (by rw [List.length_replicate]; norm_num [kChunkSize])
    rw [h]
    simp only [List.length_replicate]
  · simp only [chunkFileHeaderList, chunkFileHeadersAux, sizeofDataChunkFileHeader,
      getChunkNameTotalSize, List.length_replicate, List.map_cons, List.map_nil,
      List.sum_cons, List.sum_nil, List.length_cons, List.length_nil]
    decide

/-- C2 counterexample: a single-line (newline-free) file of `2·C + 1` bytes is
placed whole in one chunk whose content payload is `2·C + 1 > 2·C` bytes,
refuting the claimed `≤ 2·C` bound on the chunk size. -/
theorem C2_counterexample :
    (buildStore kChunkSize
        [⟨"big.txt", List.replicate (2 * kChunkSize + 1) 97, 0, 2 * kChunkSize + 1⟩]).out =
      [OutRecord.builtChunk ⟨[⟨"big.txt", List.replicate (2 * kChunkSize + 1) 97, 0,
        2 * kChunkSize + 1, 0⟩], 2 * kChunkSize + 1⟩] ∧
    2 * kChunkSize < getChunkDataTotalSize ⟨[⟨"big.txt",
      List.replicate (2 * kChunkSize + 1) 97, 0, 2 * kChunkSize + 1, 0⟩],
      2 * kChunkSize + 1⟩ := by
  have hk : (0 : Nat) < kChunkSize := by norm_num [kChunkSize]
  constructor
  · have h := buildStore_single_line kChunkSize hk "big.txt"
      (List.replicate (2 * kChunkSize + 1) 97) 0 (2 * kChunkSize + 1)
      (normalizeEOL_of_no_cr _ (by rw [List.count_replicate]; norm_num))
      (by rw [List.count_replicate]; norm_num)
      (by rw [List.length_replicate]; omega)
    rw [h]
    simp only [List.length_replicate]
  · simp only [getChunkDataTotalSize, List.map_cons, List.map_nil, List.sum_cons,
      List.sum_nil, List.length_replicate]
    omega

/-! ## Claim C3: the ordered emitter -/

theorem ooFlush_inv (texts : List (List Nat)) (done : List Nat) :
    ∀ (fuel : Nat) (st : OrderedOutput), st.chunks.length ≤ fuel →
    ooInv texts done st →
    ooInv texts done (ooFlush fuel st) ∧
      (ooFlush fuel st).currentChunk ∉ (ooFlush fuel st).chunks.map Prod.fst := by
  intro fuel
  induction fuel with
  | zero =>
    intro st hlen hinv
    have hnil : st.chunks = [] := List.length_eq_zero.mp (Nat.le_zero.mp hlen)
    exact ⟨by simpa [ooFlush] using hinv, by simp [ooFlush, hnil]⟩
  | succ f ih =>
    intro st hlen hinv
    obtain ⟨hres, hval, hmem, hbelow, hdone⟩ := hinv
    cases hp : st.chunks.find? (fun p => p.1 == st.currentChunk) with
    | none =>
      have hout : ooFlush (f + 1) st = st := by simp [ooFlush, hp]
      rw [hout]
      refine ⟨⟨hres, hval, hmem, hbelow, hdone⟩, ?_⟩
      intro hc
      obtain ⟨q, hq, hq1⟩ := List.mem_map.mp hc
      have := List.find?_eq_none.mp hp q hq
      simp [hq1] at this
    | some p =>
      have hppred : p.1 = st.currentChunk := by
        have := List.find?_some hp
        simpa using this
      have hpmem : p ∈ st.chunks := List.mem_of_find?_eq_some hp
      have hout : ooFlush (f + 1) st = ooFlush f
          ⟨st.currentChunk + 1, st.chunks.filter (fun q => q.1 != st.currentChunk),
            st.result ++ p.2⟩ := by
        simp [ooFlush, hp]
      have hcmem : st.currentChunk ∈ st.chunks.map Prod.fst :=
        List.mem_map.mpr ⟨p, hpmem, hppred⟩
      have hcdone : st.currentChunk ∈ done := ((hmem _).mp hcmem).1
      have hclt : st.currentChunk < texts.length := hdone _ hcdone
      have hlen2 : (st.chunks.filter (fun q => q.1 != st.currentChunk)).length ≤ f := by
        have : (st.chunks.filter (fun q => q.1 != st.currentChunk)).length <
            st.chunks.length :=
          List.length_filter_lt_length_iff_exists.mpr ⟨p, hpmem, by simp [hppred]⟩
        omega
      have hinv2 : ooInv texts done
          ⟨st.currentChunk + 1, st.chunks.filter (fun q => q.1 != st.currentChunk),
            st.result ++ p.2⟩ := by
        unfold ooInv
        dsimp only
        refine ⟨?_, ?_, ?_, ?_, hdone⟩
        · rw [List.take_succ, List.flatten_append, ← hres, hval p hpmem, hppred]
          simp [List.getElem?_eq_getElem hclt, List.getD_eq_getElem?_getD]
        · intro q hq
          exact hval q (List.mem_filter.mp hq).1
        · intro i
          constructor
          · intro hi
            obtain ⟨q, hq, hq1⟩ := List.mem_map.mp hi
            obtain ⟨hq2, hq3⟩ := List.mem_filter.mp hq
            have : i ∈ st.chunks.map Prod.fst := List.mem_map.mpr ⟨q, hq2, hq1⟩
            obtain ⟨hd, hc⟩ := (hmem i).mp this
            have : ¬ q.1 = st.currentChunk := by simpa using hq3
            refine ⟨hd, ?_⟩
            rw [hq1] at this
            omega
          · rintro ⟨hd, hc⟩
            have : i ∈ st.chunks.map Prod.fst := (hmem i).mpr ⟨hd, by omega⟩
            obtain ⟨q, hq, hq1⟩ := List.mem_map.mp this
            refine List.mem_map.mpr ⟨q, List.mem_filter.mpr ⟨hq, ?_⟩, hq1⟩
            simp [hq1]
            omega
        · intro i hi
          rcases Nat.lt_succ_iff_lt_or_eq.mp hi with h | h
          · exact hbelow i h
          · exact h ▸ hcdone
      rw [hout]
      exact ih _ hlen2 hinv2

theorem ooEnd_inv (texts : List (List Nat)) (done : List Nat) (st : OrderedOutput)
    (j : Nat) (hinv : ooInv texts done st)
    (_hfl : st.currentChunk ∉ st.chunks.map Prod.fst)
    (hj : j ∉ done) (hjlt : j < texts.length) :
    ooInv texts (done ++ [j]) (ooEnd st j (texts.getD j [])) ∧
      (ooEnd st j (texts.getD j [])).currentChunk ∉
        (ooEnd st j (texts.getD j [])).chunks.map Prod.fst := by
  obtain ⟨hres, hval, hmem, hbelow, hdone⟩ := hinv
  have hcj : st.currentChunk ≤ j := by
    by_contra h
    exact hj (hbelow j (by omega))
  have hinv1 : ooInv texts (done ++ [j])
      ⟨st.currentChunk, st.chunks ++ [(j, texts.getD j [])], st.result⟩ := by
    unfold ooInv
    dsimp only
    refine ⟨hres, ?_, ?_, ?_, ?_⟩
    · intro q hq
      rcases List.mem_append.mp hq with h | h
      · exact hval q h
      · have : q = (j, texts.getD j []) := by simpa using h
        rw [this]
    · intro i
      rw [List.map_append, List.mem_append]
      simp only [List.map_cons, List.map_nil, List.mem_singleton]
      rw [hmem i]
      constructor
      · rintro (⟨hd, hc⟩ | rfl)
        · exact ⟨List.mem_append.mpr (Or.inl hd), hc⟩
        · exact ⟨List.mem_append.mpr (Or.inr (by simp)), hcj⟩
      · rintro ⟨hd, hc⟩
        rcases List.mem_append.mp hd with h | h
        · exact Or.inl ⟨h, hc⟩
        · right
          simpa using h
    · intro i hi
      exact List.mem_append.mpr (Or.inl (hbelow i hi))
    · intro i hi
      rcases List.mem_append.mp hi with h | h
      · exact hdone i h
      · have : i = j := by simpa using h
        exact this ▸ hjlt
  have hlen1 : (st.chunks ++ [(j, texts.getD j [])]).length ≤ st.chunks.length + 1 := by
    simp
  have := ooFlush_inv texts (done ++ [j]) (st.chunks.length + 1)
    ⟨st.currentChunk, st.chunks ++ [(j, texts.getD j [])], st.result⟩ hlen1 hinv1
  simpa [ooEnd] using this

theorem ooRun_inv (texts : List (List Nat)) :
    ∀ (order done : List Nat) (st : OrderedOutput),
    ooInv texts done st →
    st.currentChunk ∉ st.chunks.map Prod.fst →
    (done ++ order).Nodup → (∀ j ∈ order, j < texts.length) →
    ooInv texts (done ++ order)
        (order.foldl (fun s i => ooEnd s i (texts.getD i [])) st) ∧
      (order.foldl (fun s i => ooEnd s i (texts.getD i [])) st).currentChunk ∉
        (order.foldl (fun s i => ooEnd s i (texts.getD i [])) st).chunks.map Prod.fst
  | [], done, st, hinv, hfl, _, _ => by
    rw [List.append_nil]
    exact ⟨hinv, hfl⟩
  | j :: rest, done, st, hinv, hfl, hnd, hbnd => by
    have hj : j ∉ done := by
      intro h
      have hdisj := (List.nodup_append.mp hnd).2.2
      exact hdisj h (by simp)
    have step := ooEnd_inv texts done st j hinv hfl hj (hbnd j (by simp))
    have hnd2 : ((done ++ [j]) ++ rest).Nodup := by
      simpa [List.append_assoc] using hnd
    have hres := ooRun_inv texts rest (done ++ [j]) _ step.1 step.2 hnd2
      (fun k hk => hbnd k (by simp [hk]))
    rw [List.append_assoc, List.singleton_append] at hres
    exact hres

/-- C3: for every sequence of per-chunk outputs `texts` (listed in on-disk
chunk order, indices assigned monotonically from 0 in read order) and every
completion order of the worker pool (any permutation of the chunk indices),
the ordered emitter releases exactly the concatenation of the chunk outputs in
chunk-index order — all output of chunk `i` precedes all output of chunk
`i+1` — and holds nothing back. -/
theorem C3_output_in_chunk_order (texts : List (List Nat)) (order : List Nat)
    (hperm : order.Perm (List.range texts.length)) :
    (ooRun texts order).result = texts.flatten ∧ (ooRun texts order).chunks = [] := by
  have hnd : order.Nodup := hperm.nodup_iff.mpr (List.nodup_range _)
  have hdone_iff : ∀ i : Nat, i ∈ order ↔ i < texts.length := fun i => by
    rw [hperm.mem_iff, List.mem_range]
  have hinit : ooInv texts [] ⟨0, [], []⟩ := by
    refine ⟨rfl, ?_, ?_, ?_, ?_⟩ <;> simp
  have hrun := ooRun_inv texts order [] ⟨0, [], []⟩ hinit (by simp)
    (by simpa using hnd) (fun j hj => (hdone_iff j).mp hj)
  rw [List.nil_append] at hrun
  have hrweq : (order.foldl (fun s i => ooEnd s i (texts.getD i [])) ⟨0, [], []⟩) =
      ooRun texts order := rfl
  rw [hrweq] at hrun
  obtain ⟨⟨hres, hval, hmem, hbelow, hdone⟩, hfl⟩ := hrun
  have hcn : (ooRun texts order).currentChunk = texts.length := by
    have h1 : (ooRun texts order).currentChunk ∉ order := by
      intro h
      exact hfl ((hmem _).mpr ⟨h, le_refl _⟩)
    have h2 : ¬ (ooRun texts order).currentChunk < texts.length := fun h =>
      h1 ((hdone_iff _).mpr h)
    have h3 : (ooRun texts order).currentChunk ≤ texts.length := by
      by_contra h
      have hmemn := hbelow texts.length (by omega)
      exact absurd ((hdone_iff _).mp hmemn) (lt_irrefl _)
    omega
  constructor
  · rw [show (ooRun texts order).result =
      (texts.take (ooRun texts order).currentChunk).flatten from hres, hcn,
      List.take_length]
  · have : ∀ q ∈ (ooRun texts order).chunks, False := by
      intro q hq
      have : q.1 ∈ (ooRun texts order).chunks.map Prod.fst :=
        List.mem_map.mpr ⟨q, hq, rfl⟩
      obtain ⟨hd, hc⟩ := (hmem q.1).mp this
      rw [hcn] at hc
      exact absurd ((hdone_iff q.1).mp hd) (by omega)
    exact List.eq_nil_iff_forall_not_mem.mpr this

theorem C3_witness :
    ([2, 0, 1] : List Nat).Perm (List.range ([[1], [2], [3]] : List (List Nat)).length) ∧
    (ooRun [[1], [2], [3]] [2, 0, 1]).result = ([[1], [2], [3]] : List (List Nat)).flatten :=
  ⟨by decide, (C3_output_in_chunk_order [[1], [2], [3]] [2, 0, 1] (by decide)).1⟩

/-! ## Claim C4: reported line numbers and columns -/

theorem findLineEndFrom_le : ∀ l : List Nat, findLineEndFrom l ≤ l.length
  | [] => Nat.le_refl 0
  | b :: rest => by
    by_cases hb : b = 10 <;> simp [findLineEndFrom, hb]
    exact findLineEndFrom_le rest

theorem findLineEndFrom_get : ∀ l : List Nat, findLineEndFrom l < l.length →
    l[findLineEndFrom l]? = some 10
  | [], h => by simp [findLineEndFrom] at h
  | b :: rest, h => by
    by_cases hb : b = 10
    · simp [findLineEndFrom, hb]
    · simp only [findLineEndFrom, hb, reduceIte] at h ⊢
      have h2 : findLineEndFrom rest < rest.length := by
        rw [List.length_cons] at h
        omega
      simpa using findLineEndFrom_get rest h2

theorem count_take_findLineEndFrom : ∀ l : List Nat,
    (l.take (findLineEndFrom l)).count 10 = 0
  | [] => rfl
  | b :: rest => by
    by_cases hb : b = 10
    · simp [findLineEndFrom, hb]
    · simp only [findLineEndFrom, hb, reduceIte, List.take_succ_cons, List.count_cons]
      simp [hb, count_take_findLineEndFrom rest]

/-- `findLineStart` relative to a range starting at a line boundary agrees with
`findLineStart` on the whole record. -/
theorem findLineStart_shift (data : List Nat) (pos : Nat)
    (hstart : pos = 0 ∨ data[pos - 1]? = some 10) :
    ∀ o : Nat, findLineStart data (pos + o) = pos + findLineStart (data.drop pos) o
  | 0 => by
    rcases hstart with h | h
    · subst h; rfl
    · cases pos with
      | zero => rfl
      | succ q =>
        have hq : data[q]? = some 10 := by simpa using h
        show findLineStart data (q + 1 + 0) = q + 1 + findLineStart (data.drop (q + 1)) 0
        simp only [Nat.add_zero, findLineStart, hq, reduceIte]
  | o + 1 => by
    show findLineStart data (pos + o + 1) = pos + findLineStart (data.drop pos) (o + 1)
    simp only [findLineStart]
    rw [List.getElem?_drop]
    by_cases hnl : data[pos + o]? = some 10
    · simp [hnl]
      omega
    · simp only [hnl, reduceIte]
      exact findLineStart_shift data pos hstart o

theorem processFileLoop_spec (m : List Nat → Option (Nat × Nat)) (data : List Nat)
    (startLine : Nat) (hwf : matcherWF m) (hll : matcherLineLocal m) :
    ∀ (fuel pos line : Nat),
    pos ≤ data.length →
    line = startLine + (data.take pos).count 10 →
    (pos = 0 ∨ data[pos - 1]? = some 10) →
    ∀ mi ∈ processFileLoop m data fuel pos line,
      mi.line = startLine + 1 + (data.take mi.matchOffset).count 10 ∧
      mi.column = mi.matchOffset - findLineStart data mi.matchOffset + 1
  | 0, pos, line => by
    intro _ _ _ mi hmi
    simp [processFileLoop] at hmi
  | fuel + 1, pos, line => by
    intro hpos hline hstart mi hmi
    rw [processFileLoop] at hmi
    cases hm : m (data.drop pos) with
    | none => rw [hm] at hmi; simp at hmi
    | some os =>
      obtain ⟨o, s⟩ := os
      rw [hm] at hmi
      dsimp only at hmi
      have hos : o + s ≤ data.length - pos := by
        have := hwf _ _ _ hm
        simpa [List.length_drop] using this
      have hcount_a : (data.take (pos + o)).count 10 =
          (data.take pos).count 10 + ((data.drop pos).take o).count 10 := by
        rw [List.take_add, List.count_append]
      have hshift := findLineStart_shift data pos hstart o
      have hmi0_line : line + 1 + countLines ((data.drop pos).take o) =
          startLine + 1 + (data.take (pos + o)).count 10 := by
        simp only [countLines]
        omega
      have hmi0_col : pos + o - (pos + findLineStart (data.drop pos) o) + 1 =
          pos + o - findLineStart data (pos + o) + 1 := by
        rw [hshift]
      by_cases hend : findLineEnd data (pos + o + s) = data.length
      · rw [if_pos hend] at hmi
        have hmieq : mi = ⟨line + 1 + countLines ((data.drop pos).take o),
            pos + o - (pos + findLineStart (data.drop pos) o) + 1, pos + o, s,
            pos + findLineStart (data.drop pos) o,
            findLineEnd data (pos + o + s)⟩ := by
          simpa using hmi
        rw [hmieq]
        exact ⟨hmi0_line, hmi0_col⟩
      · rw [if_neg hend] at hmi
        rcases List.mem_cons.mp hmi with hmi | hmi
        · rw [hmi]
          exact ⟨hmi0_line, hmi0_col⟩
        · -- the recursive call: establish the invariant at the next position
          have hq_le : findLineEndFrom (data.drop (pos + o + s)) ≤
              data.length - (pos + o + s) := by
            have := findLineEndFrom_le (data.drop (pos + o + s))
            simpa [List.length_drop] using this
          have hlend_lt : findLineEnd data (pos + o + s) < data.length := by
            have hle : findLineEnd data (pos + o + s) ≤ data.length := by
              unfold findLineEnd
              omega
            omega
          have hq_lt : findLineEndFrom (data.drop (pos + o + s)) <
              (data.drop (pos + o + s)).length := by
            rw [List.length_drop]
            unfold findLineEnd at hlend_lt
            omega
          have hget : data[findLineEnd data (pos + o + s)]? = some 10 := by
            have := findLineEndFrom_get (data.drop (pos + o + s)) hq_lt
            rw [List.getElem?_drop] at this
            exact this
          have hdd1 : (data.drop pos).drop o = data.drop (pos + o) := by
            rw [List.drop_drop]
          have hdd2 : (data.drop (pos + o)).drop s = data.drop (pos + o + s) := by
            rw [List.drop_drop]
          have hseg1 : ((data.drop (pos + o)).take s).count 10 = 0 := by
            have := hll _ _ _ hm
            rw [hdd1] at this
            exact this
          have hseg2 : ((data.drop (pos + o + s)).take
              (findLineEndFrom (data.drop (pos + o + s)) + 1)).count 10 = 1 := by
            rw [List.take_succ, List.count_append, count_take_findLineEndFrom]
            rw [findLineEndFrom_get (data.drop (pos + o + s)) hq_lt]
            rfl
          have hinner : ((data.drop (pos + o)).take
              (s + (findLineEndFrom (data.drop (pos + o + s)) + 1))).count 10 = 1 := by
            rw [List.take_add, List.count_append, hseg1, hdd2, hseg2]
          have hsum : (data.take (findLineEnd data (pos + o + s) + 1)).count 10 =
              (data.take (pos + o)).count 10 + 1 := by
            have hdecomp : findLineEnd data (pos + o + s) + 1 =
                (pos + o) + (s + (findLineEndFrom (data.drop (pos + o + s)) + 1)) := by
              unfold findLineEnd
              omega
            rw [hdecomp, List.take_add, List.count_append, hinner]
          have hinv_line : line + 1 + countLines ((data.drop pos).take o) =
              startLine + (data.take (findLineEnd data (pos + o + s) + 1)).count 10 := by
            simp only [countLines]
            omega
          exact processFileLoop_spec m data startLine hwf hll fuel
            (findLineEnd data (pos + o + s) + 1)
            (line + 1 + countLines ((data.drop pos).take o))
            (by omega) hinv_line
            (Or.inr (by simpa using hget)) mi hmi

/-- C4 amended: provided the regex collaborator only reports matches lying
inside the searched range and containing no `'\n'` byte, every reported
match's line number is `start_line + 1 +` the number of `'\n'` bytes of the
record's data strictly before the match start, and its column is the 1-based
byte offset of the match start from the beginning of its enclosing line.  (The
counterexample shows the line-number half fails without the
no-newline-in-match proviso.) -/
theorem C4_amended (m : List Nat → Option (Nat × Nat)) (data : List Nat)
    (startLine : Nat) (hwf : matcherWF m) (hll : matcherLineLocal m) :
    ∀ mi ∈ processFile m data startLine,
      mi.line = startLine + 1 + countLines (data.take mi.matchOffset) ∧
      mi.column = mi.matchOffset - findLineStart data mi.matchOffset + 1 := by
  intro mi hmi
  have := processFileLoop_spec m data startLine hwf hll (data.length + 1) 0 startLine
    (Nat.zero_le _) (by simp) (Or.inl rfl) mi hmi
  simpa [countLines] using this

/-! ### The literal matcher is a well-formed regex collaborator -/

theorem litHere_take : ∀ (pat l : List Nat), litHere pat l = true →
    pat.length ≤ l.length ∧ l.take pat.length = pat
  | [], l, _ => ⟨Nat.zero_le _, rfl⟩
  | p :: ps, [], h => by simp [litHere] at h
  | p :: ps, x :: xs, h => by
    simp only [litHere, Bool.and_eq_true, beq_iff_eq] at h
    obtain ⟨h1, h2⟩ := h
    obtain ⟨h3, h4⟩ := litHere_take ps xs h2
    refine ⟨by simpa using h3, ?_⟩
    simp [List.take_succ_cons, h1, h4]

theorem litFind_spec : ∀ (pat l : List Nat) (i : Nat), litFind pat l = some i →
    i + pat.length ≤ l.length ∧ (l.drop i).take pat.length = pat
  | pat, [], i, h => by
    by_cases hh : litHere pat [] = true
    · simp only [litFind, hh, reduceIte, Option.some.injEq] at h
      subst h
      obtain ⟨h1, h2⟩ := litHere_take pat [] hh
      exact ⟨by simpa using h1, by simpa using h2⟩
    · simp [litFind, hh] at h
  | pat, x :: rest, i, h => by
    by_cases hh : litHere pat (x :: rest) = true
    · simp only [litFind, hh, reduceIte, Option.some.injEq] at h
      subst h
      obtain ⟨h1, h2⟩ := litHere_take pat (x :: rest) hh
      exact ⟨by simpa using h1, by simpa using h2⟩
    · simp only [litFind, hh, reduceIte] at h
      cases hrec : litFind pat rest with
      | none => rw [hrec] at h; simp at h
      | some j =>
        rw [hrec] at h
        simp at h
        subst h
        obtain ⟨h1, h2⟩ := litFind_spec pat rest j hrec
        refine ⟨?_, by simpa using h2⟩
        rw [List.length_cons]
        omega

theorem litMatcher_wf (pat : List Nat) : matcherWF (litMatcher pat) := by
  intro l o s h
  unfold litMatcher at h
  cases hrec : litFind pat l with
  | none => rw [hrec] at h; simp at h
  | some i =>
    rw [hrec] at h
    simp only [Option.map_some', Option.some.injEq, Prod.mk.injEq] at h
    obtain ⟨ho, hs⟩ := h
    rw [← ho, ← hs]
    exact (litFind_spec pat l i hrec).1

theorem litMatcher_line_local (pat : List Nat) (hp : pat.count 10 = 0) :
    matcherLineLocal (litMatcher pat) := by
  intro l o s h
  unfold litMatcher at h
  cases hrec : litFind pat l with
  | none => rw [hrec] at h; simp at h
  | some i =>
    rw [hrec] at h
    simp only [Option.map_some', Option.some.injEq, Prod.mk.injEq] at h
    obtain ⟨ho, hs⟩ := h
    rw [← ho, ← hs, (litFind_spec pat l i hrec).2]
    exact hp

/-- C4 counterexample: with the well-formed literal matcher for `"b\nc"`
(`SO_LITERAL` with a pattern containing a newline) on the record data
`"b\ncx\nb\nc"`, the second reported match (at byte offset 5) is reported on
line 2, but `start_line + 1 +` the number of `'\n'` bytes before offset 5 is
3: the incremental counter skips the newline inside the previous match. -/
theorem C4_counterexample :
    matcherWF (litMatcher [98, 10, 99]) ∧
    (processFile (litMatcher [98, 10, 99]) [98, 10, 99, 120, 10, 98, 10, 99] 0).map
        (fun mi => (mi.line, mi.matchOffset)) = [(1, 0), (2, 5)] ∧
    0 + 1 + countLines (([98, 10, 99, 120, 10, 98, 10, 99] : List Nat).take 5) = 3 ∧
    (2 : Nat) ≠ 3 :=
  ⟨litMatcher_wf [98, 10, 99], by decide, by decide, by decide⟩

theorem C4_amended_witness :
    matcherWF (litMatcher [97]) ∧ matcherLineLocal (litMatcher [97]) ∧
    ∀ mi ∈ processFile (litMatcher [97]) [97, 10, 97] 0,
      mi.line = 0 + 1 + countLines (([97, 10, 97] : List Nat).take mi.matchOffset) ∧
      mi.column = mi.matchOffset - findLineStart [97, 10, 97] mi.matchOffset + 1 :=
  ⟨litMatcher_wf [97], litMatcher_line_local [97] (by decide),
    C4_amended (litMatcher [97]) [97, 10, 97] 0 (litMatcher_wf [97])
      (litMatcher_line_local [97] (by decide))⟩

/-! ## Claim C6: the bloom hash iteration count -/

/-- Any computed hash count at index 1024/3000: the exact value of the
double expression. -/
theorem hashExact_1024_3000 :
    indexHashExact 1024 3000 = 5678261706752 / 3000000000000 := by
  unfold indexHashExact
  norm_num

theorem hashFloor_1024_3000 : ⌊indexHashExact 1024 3000⌋ = 1 := by
  rw [hashExact_1024_3000, Int.floor_eq_iff] <;> norm_num

/-- The exact value 1.8928 at index 1024/3000 is far from the truncation
boundaries: a relative wobble of `2^-50` cannot move its floor. -/
theorem hashMargin_1024_3000 :
    ⌊indexHashExact 1024 3000 * (1 - 1 / 2 ^ 50)⌋ =
      ⌊indexHashExact 1024 3000 * (1 + 1 / 2 ^ 50)⌋ := by
  rw [hashExact_1024_3000]
  have h1 : ⌊(5678261706752 : ℚ) / 3000000000000 * (1 - 1 / 2 ^ 50)⌋ = 1 := by
    rw [Int.floor_eq_iff] <;> norm_num
  have h2 : ⌊(5678261706752 : ℚ) / 3000000000000 * (1 + 1 / 2 ^ 50)⌋ = 1 := by
    rw [Int.floor_eq_iff] <;> norm_num
  rw [h1, h2]

/-- One allowed evaluation at index 1024/3000 (every rounding exact): the
stored count is 1. -/
theorem hashIterRel_1024_3000 : getIndexHashIterations 1024 3000 1 := by
  unfold getIndexHashIterations
  rw [if_neg (by norm_num)]
  refine ⟨693147181 / 1000000000,
    693147181 / 1000000000 * ((1024 * 8 % 2 ^ 32 : Nat) : ℚ),
    693147181 / 1000000000 * ((1024 * 8 % 2 ^ 32 : Nat) : ℚ) / ((3000 : Nat) : ℚ),
    ?_, ?_, ?_, ?_⟩
  · rw [sub_self, abs_zero]
    positivity
  · rw [sub_self, abs_zero]
    positivity
  · rw [sub_self, abs_zero]
    positivity
  · have hval : (693147181 : ℚ) / 1000000000 * ((1024 * 8 % 2 ^ 32 : Nat) : ℚ) /
        ((3000 : Nat) : ℚ) = 5678261706752 / 3000000000000 := by
      norm_num
    rw [hval]
    rw [if_neg (by norm_num), if_neg (by norm_num)]
    have hfl : ⌊(5678261706752 : ℚ) / 3000000000000⌋ = 1 := by
      rw [Int.floor_eq_iff] <;> norm_num
    rw [hfl]
    rfl

set_option maxHeartbeats 1600000 in
/-- Core of C6: whenever the exact rational value is far enough from an
integer that a relative wobble of `2^-50` (three roundings at `2^-53` each,
plus the constant's representation error) cannot cross a truncation boundary,
every allowed double evaluation stores the clamped truncation of the exact
value. -/
theorem hashIter_floor (indexSize itemCount k : Nat) (hn : itemCount ≠ 0)
    (hmargin : ⌊indexHashExact indexSize itemCount * (1 - 1 / 2 ^ 50)⌋ =
      ⌊indexHashExact indexSize itemCount * (1 + 1 / 2 ^ 50)⌋)
    (hrel : getIndexHashIterations indexSize itemCount k) :
    k = min 16 (max 1 (Int.toNat ⌊indexHashExact indexSize itemCount⌋)) := by
  unfold getIndexHashIterations at hrel
  rw [if_neg hn] at hrel
  obtain ⟨c, p1, p2, hc, hp1, hp2, hk⟩ := hrel
  set M : ℚ := ((indexSize * 8 % 2 ^ 32 : Nat) : ℚ) with hM
  set N : ℚ := (itemCount : ℚ) with hN
  have hMnn : 0 ≤ M := by rw [hM]; positivity
  have hNpos : 0 < N := by
    rw [hN]
    exact_mod_cast Nat.pos_of_ne_zero hn
  have hNinv : (0 : ℚ) ≤ N⁻¹ := inv_nonneg.mpr hNpos.le
  have hx0 : indexHashExact indexSize itemCount = 693147181 / 1000000000 * M / N := rfl
  have hcb := abs_le.mp hc
  have hclo : (693147181 : ℚ) / 1000000000 * (1 - 1 / 2 ^ 53) ≤ c := by nlinarith [hcb.1]
  have hchi : c ≤ (693147181 : ℚ) / 1000000000 * (1 + 1 / 2 ^ 53) := by nlinarith [hcb.2]
  have hcpos : (0 : ℚ) ≤ c := by nlinarith [hclo]
  have hcMnn : (0 : ℚ) ≤ c * M := mul_nonneg hcpos hMnn
  rw [abs_of_nonneg hcMnn] at hp1
  have hp1b := abs_le.mp hp1
  have hp1lo : c * M * (1 - 1 / 2 ^ 53) ≤ p1 := by nlinarith [hp1b.1]
  have hp1hi : p1 ≤ c * M * (1 + 1 / 2 ^ 53) := by nlinarith [hp1b.2]
  have hp1nn : (0 : ℚ) ≤ p1 := by nlinarith [hp1lo, hcMnn]
  have hp1Nnn : (0 : ℚ) ≤ p1 / N := div_nonneg hp1nn hNpos.le
  rw [abs_of_nonneg hp1Nnn] at hp2
  have hp2b := abs_le.mp hp2
  have hp2lo1 : p1 / N * (1 - 1 / 2 ^ 53) ≤ p2 := by nlinarith [hp2b.1]
  have hp2hi1 : p2 ≤ p1 / N * (1 + 1 / 2 ^ 53) := by nlinarith [hp2b.2]
  have hAnn : (0 : ℚ) ≤ 693147181 / 1000000000 * M * N⁻¹ := by positivity
  have hxlo : indexHashExact indexSize itemCount * (1 - 1 / 2 ^ 50) ≤ p2 := by
    have s1 : (693147181 : ℚ) / 1000000000 * (1 - 1 / 2 ^ 53) * M ≤ c * M :=
      mul_le_mul_of_nonneg_right hclo hMnn
    have s2 : (693147181 : ℚ) / 1000000000 * (1 - 1 / 2 ^ 53) * M * (1 - 1 / 2 ^ 53) ≤
        c * M * (1 - 1 / 2 ^ 53) :=
      mul_le_mul_of_nonneg_right s1 (by norm_num)
    have s3 : (693147181 : ℚ) / 1000000000 * (1 - 1 / 2 ^ 53) * M * (1 - 1 / 2 ^ 53) ≤ p1 :=
      le_trans s2 hp1lo
    have s4 : (693147181 : ℚ) / 1000000000 * (1 - 1 / 2 ^ 53) * M * (1 - 1 / 2 ^ 53) * N⁻¹ ≤
        p1 * N⁻¹ :=
      mul_le_mul_of_nonneg_right s3 hNinv
    have s5 : (693147181 : ℚ) / 1000000000 * (1 - 1 / 2 ^ 53) * M * (1 - 1 / 2 ^ 53) * N⁻¹ *
        (1 - 1 / 2 ^ 53) ≤ p1 * N⁻¹ * (1 - 1 / 2 ^ 53) :=
      mul_le_mul_of_nonneg_right s4 (by norm_num)
    have s6 : p1 * N⁻¹ * (1 - 1 / 2 ^ 53) = p1 / N * (1 - 1 / 2 ^ 53) := by
      ring
    have hA3 : ((1 : ℚ) - 1 / 2 ^ 50) ≤ (1 - 1 / 2 ^ 53) ^ 3 := by norm_num
    rw [hx0]
    rw [show (693147181 : ℚ) / 1000000000 * M / N * (1 - 1 / 2 ^ 50) =
      693147181 / 1000000000 * M * N⁻¹ * (1 - 1 / 2 ^ 50) from by ring]
    calc 693147181 / 1000000000 * M * N⁻¹ * (1 - 1 / 2 ^ 50)
        ≤ 693147181 / 1000000000 * M * N⁻¹ * ((1 - 1 / 2 ^ 53) ^ 3) :=
          mul_le_mul_of_nonneg_left hA3 hAnn
      _ = 693147181 / 1000000000 * (1 - 1 / 2 ^ 53) * M * (1 - 1 / 2 ^ 53) * N⁻¹ *
          (1 - 1 / 2 ^ 53) := by ring
      _ ≤ p1 * N⁻¹ * (1 - 1 / 2 ^ 53) := s5
      _ = p1 / N * (1 - 1 / 2 ^ 53) := s6
      _ ≤ p2 := hp2lo1
  have hxhi : p2 ≤ indexHashExact indexSize itemCount * (1 + 1 / 2 ^ 50) := by
    have s1 : c * M ≤ (693147181 : ℚ) / 1000000000 * (1 + 1 / 2 ^ 53) * M :=
      mul_le_mul_of_nonneg_right hchi hMnn
    have s2 : c * M * (1 + 1 / 2 ^ 53) ≤
        (693147181 : ℚ) / 1000000000 * (1 + 1 / 2 ^ 53) * M * (1 + 1 / 2 ^ 53) :=
      mul_le_mul_of_nonneg_right s1 (by norm_num)
    have s3 : p1 ≤ (693147181 : ℚ) / 1000000000 * (1 + 1 / 2 ^ 53) * M * (1 + 1 / 2 ^ 53) :=
      le_trans hp1hi s2
    have s4 : p1 * N⁻¹ ≤
        (693147181 : ℚ) / 1000000000 * (1 + 1 / 2 ^ 53) * M * (1 + 1 / 2 ^ 53) * N⁻¹ :=
      mul_le_mul_of_nonneg_right s3 hNinv
    have s5 : p1 * N⁻¹ * (1 + 1 / 2 ^ 53) ≤
        (693147181 : ℚ) / 1000000000 * (1 + 1 / 2 ^ 53) * M * (1 + 1 / 2 ^ 53) * N⁻¹ *
        (1 + 1 / 2 ^ 53) :=
      mul_le_mul_of_nonneg_right s4 (by norm_num)
    have s6 : p1 * N⁻¹ * (1 + 1 / 2 ^ 53) = p1 / N * (1 + 1 / 2 ^ 53) := by
      ring
    have hA3 : ((1 : ℚ) + 1 / 2 ^ 53) ^ 3 ≤ 1 + 1 / 2 ^ 50 := by norm_num
    rw [hx0]
    rw [show (693147181 : ℚ) / 1000000000 * M / N * (1 + 1 / 2 ^ 50) =
      693147181 / 1000000000 * M * N⁻¹ * (1 + 1 / 2 ^ 50) from by ring]
    calc p2 ≤ p1 / N * (1 + 1 / 2 ^ 53) := hp2hi1
      _ = p1 * N⁻¹ * (1 + 1 / 2 ^ 53) := s6.symm
      _ ≤ 693147181 / 1000000000 * (1 + 1 / 2 ^ 53) * M * (1 + 1 / 2 ^ 53) * N⁻¹ *
          (1 + 1 / 2 ^ 53) := s5
      _ = 693147181 / 1000000000 * M * N⁻¹ * ((1 + 1 / 2 ^ 53) ^ 3) := by ring
      _ ≤ 693147181 / 1000000000 * M * N⁻¹ * (1 + 1 / 2 ^ 50) :=
          mul_le_mul_of_nonneg_left hA3 hAnn
  have hxnn : (0 : ℚ) ≤ indexHashExact indexSize itemCount := by
    rw [hx0]
    positivity
  have hfl : ⌊p2⌋ = ⌊indexHashExact indexSize itemCount⌋ := by
    have h1 := Int.floor_mono hxlo
    have h2 := Int.floor_mono hxhi
    have h3 : indexHashExact indexSize itemCount * (1 - 1 / 2 ^ 50) ≤
        indexHashExact indexSize itemCount := by nlinarith [hxnn]
    have h4 : indexHashExact indexSize itemCount ≤
        indexHashExact indexSize itemCount * (1 + 1 / 2 ^ 50) := by nlinarith [hxnn]
    have h5 := Int.floor_mono h3
    have h6 := Int.floor_mono h4
    omega
  by_cases h1 : p2 < 1
  · rw [if_pos h1] at hk
    have hF : ⌊p2⌋ < 1 := Int.floor_lt.mpr (by exact_mod_cast h1)
    rw [hk, ← hfl]
    omega
  · by_cases h16 : p2 > 16
    · rw [if_neg h1, if_pos h16] at hk
      have hF : (16 : ℤ) ≤ ⌊p2⌋ := Int.le_floor.mpr (by exact_mod_cast h16.le)
      rw [hk, ← hfl]
      omega
    · rw [if_neg h1, if_neg h16] at hk
      have hF1 : (1 : ℤ) ≤ ⌊p2⌋ := Int.le_floor.mpr (by exact_mod_cast not_lt.mp h1)
      have hF16 : ⌊p2⌋ ≤ 16 := by
        have h := Int.floor_mono (not_lt.mp h16)
        simpa using h
      rw [hk, ← hfl]
      omega

/-- C6 counterexample: for `index_size = 1024` bytes (`m = 8192` filter bits)
and `n = 3000` distinct keys, `ln 2 · m / n ≈ 1.8928`, so the claimed
`round(ln 2 · m / n)` clamped to `[1, 16]` is 2, but the stored count is 1 —
under **every** IEEE-double evaluation admitted by the rounding-error model
(the value is ≈ 0.39 from the truncation boundary, far beyond the `2^-50`
wobble), and 1 is realized: the `static_cast<unsigned int>` truncates instead
of rounding. -/
theorem C6_counterexample :
    getIndexHashIterations 1024 3000 1 ∧
    (∀ k : Nat, getIndexHashIterations 1024 3000 k → k = 1) ∧
    round (Real.log 2 * (1024 * 8 : ℝ) / 3000) = 2 ∧ (1 : Nat) ≠ 2 := by
  refine ⟨hashIterRel_1024_3000, ?_, ?_, by norm_num⟩
  · intro k hrelk
    have h := hashIter_floor 1024 3000 k (by norm_num) hashMargin_1024_3000 hrelk
    rw [h, hashFloor_1024_3000]
    rfl
  · have hlo : (0.6931471803 : ℝ) < Real.log 2 := Real.log_two_gt_d9
    have hhi : Real.log 2 < 0.6931471808 := Real.log_two_lt_d9
    rw [round_eq, Int.floor_eq_iff]
    constructor
    · push_cast
      nlinarith
    · push_cast
      nlinarith

/-- C6 amended: the stored hash-iteration count is the *truncation* (not
rounding) of the double expression `0.693147181 · m / n` (`m = (index_size·8)
mod 2^32` filter bits), clamped to `[1, 16]`, and 1 when `n = 0`: whenever the
exact rational value is far enough from an integer that the three double
roundings (relative error `2^-53` each, `2^-50` in total) cannot cross a
truncation boundary, every admitted evaluation stores
`min 16 (max 1 ⌊0.693147181·m/n⌋)`. -/
theorem C6_amended (indexSize itemCount k : Nat)
    (hmargin : ⌊indexHashExact indexSize itemCount * (1 - 1 / 2 ^ 50)⌋ =
      ⌊indexHashExact indexSize itemCount * (1 + 1 / 2 ^ 50)⌋)
    (hrel : getIndexHashIterations indexSize itemCount k) :
    k = if itemCount = 0 then 1
      else min 16 (max 1 (Int.toNat ⌊indexHashExact indexSize itemCount⌋)) := by
  by_cases hn : itemCount = 0
  · rw [if_pos hn]
    unfold getIndexHashIterations at hrel
    rw [if_pos hn] at hrel
    exact hrel
  · rw [if_neg hn]
    exact hashIter_floor indexSize itemCount k hn hmargin hrel

/-- Witness for `C6_amended` at index size 1024 and 3000 keys: the margin
holds and the realizable stored count 1 equals the clamped truncation. -/
theorem C6_amended_witness :
    (1 : Nat) = if (3000 : Nat) = 0 then 1
      else min 16 (max 1 (Int.toNat ⌊indexHashExact 1024 3000⌋)) :=
  C6_amended 1024 3000 1 hashMargin_1024_3000 hashIterRel_1024_3000


theorem C8_amended_witness :
    4 * 2 < (⟨[], 9, []⟩ : BuilderState).pendingSize ∧
    appendChunkAfterFlush 4 ⟨1, 9, 3, 0, 0⟩ [5] [8] ⟨[], 9, []⟩ = (false, ⟨[], 9, []⟩) :=
  ⟨by decide, C8_amended 4 ⟨1, 9, 3, 0, 0⟩ [5] [8] ⟨[], 9, []⟩ (by decide)⟩

/-! ## Claim C9: start lines of split files -/

theorem skipByLinesAux_spec : ∀ (l : List Nat) (i : Nat) (acc : Nat × Nat),
    (l.count 10 = 0 ∧ skipByLinesAux l i acc = acc) ∨
    (0 < l.count 10 ∧ ∃ q, 0 < q ∧ q ≤ l.length ∧
      (l.take q).count 10 = l.count 10 ∧
      skipByLinesAux l i acc = (i + q, acc.2 + l.count 10))
  | [], i, acc => Or.inl ⟨rfl, rfl⟩
  | b :: rest, i, acc => by
    by_cases hb : b = 10
    · subst hb
      rcases skipByLinesAux_spec rest (i + 1) (i + 1, acc.2 + 1) with ⟨h0, he⟩ | ⟨hpos, q, hq0, hqle, hqcount, he⟩
      · refine Or.inr ⟨by simp [List.count_cons, h0], 1, Nat.one_pos, by simp, ?_, ?_⟩
        · simp [List.count_cons, h0]
        · rw [show skipByLinesAux (10 :: rest) i acc =
            skipByLinesAux rest (i + 1) (i + 1, acc.2 + 1) from by simp [skipByLinesAux], he]
          simp [List.count_cons, h0]
      · refine Or.inr ⟨by simp [List.count_cons], q + 1, by omega, by simp; omega, ?_, ?_⟩
        · rw [List.take_succ_cons, List.count_cons, hqcount]
          simp [List.count_cons]
        · rw [show skipByLinesAux (10 :: rest) i acc =
            skipByLinesAux rest (i + 1) (i + 1, acc.2 + 1) from by simp [skipByLinesAux], he]
          simp [List.count_cons]
          constructor <;> omega
    · rcases skipByLinesAux_spec rest (i + 1) acc with ⟨h0, he⟩ | ⟨hpos, q, hq0, hqle, hqcount, he⟩
      · refine Or.inl ⟨by simp [List.count_cons, h0, hb], ?_⟩
        rw [show skipByLinesAux (b :: rest) i acc =
          skipByLinesAux rest (i + 1) acc from by simp [skipByLinesAux, hb], he]
      · refine Or.inr ⟨by simpa [List.count_cons, hb] using hpos, q + 1, by omega,
          by simp; omega, ?_, ?_⟩
        · rw [List.take_succ_cons, List.count_cons, hqcount]
          simp [List.count_cons, hb]
        · rw [show skipByLinesAux (b :: rest) i acc =
            skipByLinesAux rest (i + 1) acc from by simp [skipByLinesAux, hb], he]
          simp [List.count_cons, hb]
          omega

theorem skipByLines_spec (l : List Nat) :
    (l.count 10 = 0 ∧ skipByLines l = (0, 0)) ∨
    (0 < l.count 10 ∧ 0 < (skipByLines l).1 ∧ (skipByLines l).1 ≤ l.length ∧
      (l.take (skipByLines l).1).count 10 = l.count 10 ∧
      (skipByLines l).2 = l.count 10) := by
  rcases skipByLinesAux_spec l 0 (0, 0) with ⟨h0, he⟩ | ⟨hpos, q, hq0, hqle, hqcount, he⟩
  · exact Or.inl ⟨h0, he⟩
  · have h1 : skipByLines l = (q, l.count 10) := by
      rw [skipByLines, he]
      simp
    rw [h1]
    exact Or.inr ⟨hpos, hq0, hqle, hqcount, rfl⟩

theorem skipOneLine_pos : ∀ l : List Nat, l ≠ [] → 0 < skipOneLine l
  | [], h => absurd rfl h
  | b :: rest, _ => by
    by_cases hb : b = 10 <;> simp [skipOneLine, hb]

theorem skipOneLine_le : ∀ l : List Nat, skipOneLine l ≤ l.length
  | [] => Nat.le_refl 0
  | b :: rest => by
    by_cases hb : b = 10 <;> simp [skipOneLine, hb]
    have := skipOneLine_le rest
    omega

theorem count_take_skipOneLine : ∀ l : List Nat, (l.take (skipOneLine l)).count 10 ≤ 1
  | [] => Nat.zero_le 1
  | b :: rest => by
    by_cases hb : b = 10
    · simp [skipOneLine, hb, List.count_cons]
    · simp only [skipOneLine, hb, reduceIte]
      rw [show 1 + skipOneLine rest = skipOneLine rest + 1 from by omega,
        List.take_succ_cons, List.count_cons]
      have := count_take_skipOneLine rest
      simp [hb]
      omega

/-- Full characterization of `appendChunkFilePrefix`: either nothing happens
(no line break in the window and the chunk is nonempty), or the record is
split at a positive offset `k` with the remainder's start line advanced by
exactly `max 1 (newlines of the flushed prefix)`. -/
theorem appendChunkFileSplit_cases (chunk : Chunk) (f : File) (rem : Nat)
    (hne : f.contents ≠ []) :
    (appendChunkFileSplit chunk f rem = (chunk, f) ∧ chunk.files ≠ []) ∨
    (∃ k, 0 < k ∧ k ≤ f.contents.length ∧
      appendChunkFileSplit chunk f rem =
        (⟨chunk.files ++ [{ f with contents := f.contents.take k }],
            chunk.totalSize + k⟩,
          { f with
            contents := f.contents.drop k,
            startLine := f.startLine + max 1 ((f.contents.take k).count 10) })) := by
  rcases skipByLines_spec (f.contents.take rem) with ⟨h0, he⟩ | ⟨hpos, hk0, hkle, hkcount, hlines⟩
  · -- no newline in the first rem bytes
    by_cases hemp : chunk.files = []
    · -- long-line fallback: split at skipOneLine over the whole record
      refine Or.inr ⟨skipOneLine f.contents, skipOneLine_pos f.contents hne,
        skipOneLine_le f.contents, ?_⟩
      have hmax : max 1 ((f.contents.take (skipOneLine f.contents)).count 10) = 1 := by
        have := count_take_skipOneLine f.contents
        omega
      rw [appendChunkFileSplit]
      rw [he]
      simp only [splitFront]
      rw [if_pos (Or.inr hemp)]
      simp only [lt_irrefl, reduceIte, if_neg, if_false]
      rw [hmax]
    · refine Or.inl ⟨?_, hemp⟩
      rw [appendChunkFileSplit, he]
      simp [hemp]
  · -- a newline exists in the window: split there
    set k := (skipByLines (f.contents.take rem)).1 with hkdef
    refine Or.inr ⟨k, hk0, ?_, ?_⟩
    · have : k ≤ (f.contents.take rem).length := hkle
      simp only [List.length_take] at this
      omega
    · have htt : (f.contents.take rem).take k = f.contents.take k := by
        rw [List.take_take]
        congr 1
        have : k ≤ (f.contents.take rem).length := hkle
        simp only [List.length_take] at this
        omega
      have hcnt : (f.contents.take k).count 10 = (skipByLines (f.contents.take rem)).2 := by
        rw [hlines, ← hkcount, htt]
      have hmax : max 1 ((f.contents.take k).count 10) =
          (skipByLines (f.contents.take rem)).2 := by
        rw [hcnt, hlines]
        omega
      rw [appendChunkFileSplit]
      simp only [splitFront]
      rw [if_pos (Or.inl hk0)]
      rw [if_pos hk0, if_pos hk0, hmax]

theorem recsOfFiles_append (nm : String) (fs1 fs2 : List File) :
    recsOfFiles nm (fs1 ++ fs2) = recsOfFiles nm fs1 ++ recsOfFiles nm fs2 := by
  simp [recsOfFiles, List.filter_append]

theorem recsOfFiles_cons (nm : String) (f : File) (fs : List File) :
    recsOfFiles nm (f :: fs) =
      (if f.name = nm then [(f.startLine, f.contents)] else []) ++ recsOfFiles nm fs := by
  by_cases h : f.name = nm <;> simp [recsOfFiles, List.filter_cons, h]

theorem recsOfFiles_eq_nil (nm : String) (fs : List File) :
    recsOfFiles nm fs = [] ↔ ∀ f ∈ fs, ¬ f.name = nm := by
  simp [recsOfFiles, List.filter_eq_nil_iff]

theorem chainFrom0_splitStep {l l2 : List (Nat × List Nat)} (h : chainFrom0 l)
    (hs : SplitStep l l2) : chainFrom0 l2 := by
  cases hs with
  | same => exact h
  | split A r p q hp hpq hq =>
    obtain ⟨hchain, hhead⟩ := h
    rw [chainRecords, List.chain'_append] at hchain
    obtain ⟨hA, _, hlink⟩ := hchain
    constructor
    · rw [chainRecords, List.chain'_append]
      refine ⟨hA, ?_, ?_⟩
      · rw [List.chain'_pair]
        show q.1 = p.1 + max 1 (p.2.count 10)
        rw [hp]
        exact hq
      · intro x hx y hy
        have hy2 : y = p := by
          have h3 : p = y := by simpa using hy
          exact h3.symm
        rw [hy2]
        have hr := hlink x hx r (by simp)
        show p.1 = x.1 + max 1 (x.2.count 10)
        rw [hp]
        exact hr
    · intro a ha
      cases A with
      | nil =>
        have ha2 : a = p := by
          have h3 : p = a := by simpa using ha
          exact h3.symm
        rw [ha2, hp]
        exact hhead r (by simp)
      | cons x A2 =>
        have ha2 : a = x := by
          have h3 : x = a := by simpa using ha
          exact h3.symm
        rw [ha2]
        exact hhead x (by simp)

theorem SplitStep.append_left (em : List (Nat × List Nat))
    {l l2 : List (Nat × List Nat)} (h : SplitStep l l2) :
    SplitStep (em ++ l) (em ++ l2) := by
  cases h with
  | same => exact SplitStep.same _
  | split A r p q hp hpq hq =>
    have := SplitStep.split (em ++ A) r p q hp hpq hq
    simpa [List.append_assoc] using this

theorem SplitStep.nil_of {l l2 : List (Nat × List Nat)} (h : SplitStep l l2)
    (hl : l = []) : l2 = [] := by
  cases h with
  | same => exact hl
  | split A r p q => simp at hl

theorem appendChunkFileSplit_snd_name (chunk : Chunk) (f : File) (rem : Nat) :
    ((appendChunkFileSplit chunk f rem).2).name = f.name := by
  rw [appendChunkFileSplit]
  by_cases h : 0 < (skipByLines (f.contents.take rem)).1 ∨ chunk.files = [] <;>
    simp [h, splitFront]

theorem flushChunkLoop_names_sublist (size : Nat) : ∀ (pending : List File) (chunk : Chunk),
    ((flushChunkLoop size chunk pending).2.map File.name).Sublist (pending.map File.name)
  | [], chunk => by simp [flushChunkLoop]
  | f :: rest, chunk => by
    by_cases h1 : chunk.totalSize < size
    · by_cases h2 : f.contents.length ≤ size - chunk.totalSize
      · have ih := flushChunkLoop_names_sublist size rest (appendChunkFile chunk f)
        simp only [flushChunkLoop]
        rw [if_pos h1, if_pos h2]
        exact ih.trans (List.sublist_cons_self _ _)
      · simp only [flushChunkLoop]
        rw [if_pos h1, if_neg h2]
        simp only [List.map_cons]
        rw [appendChunkFileSplit_snd_name]
    · rw [flushChunkLoop_done size chunk (f :: rest) h1]

theorem flushChunkLoop_splitStep (nm : String) (size : Nat) :
    ∀ (pending : List File) (chunk : Chunk),
    (pending.map File.name).Nodup →
    SplitStep (recsOfFiles nm chunk.files ++ recsOfFiles nm pending)
      (recsOfFiles nm (flushChunkLoop size chunk pending).1.files ++
        recsOfFiles nm (flushChunkLoop size chunk pending).2)
  | [], chunk, _ => by
    simp only [flushChunkLoop]
    exact SplitStep.same _
  | f :: rest, chunk, hnd => by
    have hndrest : (rest.map File.name).Nodup := by
      rw [List.map_cons, List.nodup_cons] at hnd
      exact hnd.2
    by_cases h1 : chunk.totalSize < size
    · by_cases h2 : f.contents.length ≤ size - chunk.totalSize
      · have ih := flushChunkLoop_splitStep nm size rest (appendChunkFile chunk f) hndrest
        simp only [flushChunkLoop]
        rw [if_pos h1, if_pos h2]
        have halign : recsOfFiles nm (appendChunkFile chunk f).files =
            recsOfFiles nm chunk.files ++ recsOfFiles nm [f] := by
          rw [appendChunkFile]
          exact recsOfFiles_append nm chunk.files [f]
        rw [halign] at ih
        rw [recsOfFiles_cons nm f rest]
        have hsingle : recsOfFiles nm [f] =
            if f.name = nm then [(f.startLine, f.contents)] else [] := by
          by_cases hf : f.name = nm <;> simp [recsOfFiles, List.filter_cons, hf]
        rw [← hsingle, ← List.append_assoc]
        exact ih
      · simp only [flushChunkLoop]
        rw [if_pos h1, if_neg h2]
        have hne : f.contents ≠ [] := by
          intro hemp
          exact h2 (by simp [hemp])
        rcases appendChunkFileSplit_cases chunk f (size - chunk.totalSize) hne with
          ⟨heq, _⟩ | ⟨k, hk0, hkle, heq⟩
        · rw [heq]
          exact SplitStep.same _
        · rw [heq]
          dsimp only
          by_cases hfnm : f.name = nm
          · have hrest : recsOfFiles nm rest = [] := by
              rw [recsOfFiles_eq_nil]
              intro g hg hgname
              rw [List.map_cons, List.nodup_cons] at hnd
              exact hnd.1 (hfnm ▸ hgname ▸ List.mem_map.mpr ⟨g, hg, rfl⟩)
            have hLHS : recsOfFiles nm (f :: rest) = [(f.startLine, f.contents)] := by
              rw [recsOfFiles_cons, hrest]
              simp [hfnm]
            have hR1 : recsOfFiles nm (chunk.files ++ [{ f with contents := f.contents.take k }]) =
                recsOfFiles nm chunk.files ++ [(f.startLine, f.contents.take k)] := by
              rw [recsOfFiles_append, recsOfFiles_cons]
              simp [hfnm, recsOfFiles]
            have hR2 : recsOfFiles nm ({ f with
                contents := f.contents.drop k
                startLine := f.startLine + max 1 ((f.contents.take k).count 10) } :: rest) =
                [(f.startLine + max 1 ((f.contents.take k).count 10), f.contents.drop k)] := by
              rw [recsOfFiles_cons, hrest]
              simp [hfnm]
            rw [hLHS, hR1, hR2]
            have hq := SplitStep.split (recsOfFiles nm chunk.files)
              (f.startLine, f.contents)
              ((f.startLine, f.contents.take k))
              ((f.startLine + max 1 ((f.contents.take k).count 10), f.contents.drop k))
              rfl (List.take_append_drop k f.contents) rfl
            simpa [List.append_assoc] using hq
          · have hLHS : recsOfFiles nm (f :: rest) = recsOfFiles nm rest := by
              rw [recsOfFiles_cons]
              simp [hfnm]
            have hR1 : recsOfFiles nm (chunk.files ++ [{ f with contents := f.contents.take k }]) =
                recsOfFiles nm chunk.files := by
              rw [recsOfFiles_append, recsOfFiles_cons]
              simp [hfnm, recsOfFiles]
            have hR2 : recsOfFiles nm ({ f with
                contents := f.contents.drop k
                startLine := f.startLine + max 1 ((f.contents.take k).count 10) } :: rest) =
                recsOfFiles nm rest := by
              rw [recsOfFiles_cons]
              simp [hfnm]
            rw [hLHS, hR1, hR2]
            exact SplitStep.same _
    · rw [flushChunkLoop_done size chunk (f :: rest) h1]
      exact SplitStep.same _

theorem flushChunkSize_pendingFiles (size : Nat) (st : BuilderState) :
    (flushChunkSize size st).pendingFiles =
      (flushChunkLoop size ⟨[], 0⟩ st.pendingFiles).2 := by
  unfold flushChunkSize flushChunkEmit
  by_cases h : (flushChunkLoop size ⟨[], 0⟩ st.pendingFiles).1.files = [] <;> simp [h]

theorem combinedRecords_flushChunkSize (size : Nat) (st : BuilderState) (nm : String) :
    combinedRecords nm (flushChunkSize size st) =
      fileRecords nm st ++
        (recsOfFiles nm (flushChunkLoop size ⟨[], 0⟩ st.pendingFiles).1.files ++
          recsOfFiles nm (flushChunkLoop size ⟨[], 0⟩ st.pendingFiles).2) := by
  unfold flushChunkSize flushChunkEmit combinedRecords fileRecords pendingRecords
  by_cases h : (flushChunkLoop size ⟨[], 0⟩ st.pendingFiles).1.files = []
  · simp [h, recsOfFiles]
  · simp [h, outChunkFiles, List.append_assoc]

theorem flushChunkSize_splitStep (size : Nat) (st : BuilderState) (nm : String)
    (hnd : (st.pendingFiles.map File.name).Nodup) :
    SplitStep (combinedRecords nm st) (combinedRecords nm (flushChunkSize size st)) := by
  rw [combinedRecords_flushChunkSize]
  have hstep := flushChunkLoop_splitStep nm size st.pendingFiles ⟨[], 0⟩ hnd
  have hnilrecs : recsOfFiles nm (⟨[], 0⟩ : Chunk).files = [] := rfl
  rw [hnilrecs, List.nil_append] at hstep
  exact SplitStep.append_left (fileRecords nm st) hstep

theorem flushChunkSize_good_absent (size : Nat) (st : BuilderState) (h : goodState st) :
    goodState (flushChunkSize size st) ∧
      ∀ nm, combinedRecords nm st = [] →
        combinedRecords nm (flushChunkSize size st) = [] := by
  obtain ⟨hchain, hnd⟩ := h
  refine ⟨⟨?_, ?_⟩, ?_⟩
  · intro nm
    exact chainFrom0_splitStep (hchain nm) (flushChunkSize_splitStep size st nm hnd)
  · rw [flushChunkSize_pendingFiles]
    exact List.Nodup.sublist (flushChunkLoop_names_sublist size st.pendingFiles ⟨[], 0⟩) hnd
  · intro nm habs
    exact (flushChunkSize_splitStep size st nm hnd).nil_of habs

theorem flushIfNeededFuel_good_absent (C : Nat) : ∀ (fuel : Nat) (st : BuilderState),
    goodState st →
    goodState (flushIfNeededFuel C fuel st) ∧
      ∀ nm, combinedRecords nm st = [] →
        combinedRecords nm (flushIfNeededFuel C fuel st) = []
  | 0, st, h => ⟨h, fun _ habs => habs⟩
  | fuel + 1, st, h => by
    by_cases hc : C * 2 ≤ st.pendingSize
    · rw [flushIfNeededFuel_step C fuel st hc]
      obtain ⟨h1, h2⟩ := flushChunkSize_good_absent C st h
      obtain ⟨h3, h4⟩ := flushIfNeededFuel_good_absent C fuel (flushChunkSize C st) h1
      exact ⟨h3, fun nm habs => h4 nm (h2 nm habs)⟩
    · rw [flushIfNeededFuel_done C (fuel + 1) st (by omega)]
      exact ⟨h, fun _ habs => habs⟩

theorem flushAllFuel_good_absent (C : Nat) : ∀ (fuel : Nat) (st : BuilderState),
    goodState st →
    goodState (flushAllFuel C fuel st) ∧
      ∀ nm, combinedRecords nm st = [] →
        combinedRecords nm (flushAllFuel C fuel st) = []
  | 0, st, h => ⟨h, fun _ habs => habs⟩
  | fuel + 1, st, h => by
    by_cases hc : 0 < st.pendingSize
    · rw [flushAllFuel_step C fuel st hc]
      obtain ⟨h1, h2⟩ := flushChunkSize_good_absent C st h
      obtain ⟨h3, h4⟩ := flushAllFuel_good_absent C fuel (flushChunkSize C st) h1
      exact ⟨h3, fun nm habs => h4 nm (h2 nm habs)⟩
    · rw [flushAllFuel_done C (fuel + 1) st (by omega)]
      exact ⟨h, fun _ habs => habs⟩

theorem combinedRecords_eq_nil_parts {nm : String} {st : BuilderState}
    (h : combinedRecords nm st = []) :
    fileRecords nm st = [] ∧ recsOfFiles nm st.pendingFiles = [] := by
  rw [combinedRecords, List.append_eq_nil] at h
  exact h

theorem appendFilePart_good_absent (C : Nat) (nm : String) (data : List Nat)
    (t s : Nat) (st : BuilderState) (h : goodState st)
    (habs : combinedRecords nm st = []) :
    goodState (appendFilePart C nm 0 data t s st) ∧
      ∀ nm2, nm2 ≠ nm → combinedRecords nm2 st = [] →
        combinedRecords nm2 (appendFilePart C nm 0 data t s st) = [] := by
  obtain ⟨hchain, hnd⟩ := h
  obtain ⟨hfr, hpr⟩ := combinedRecords_eq_nil_parts habs
  have hnames : ∀ f ∈ st.pendingFiles, ¬ f.name = nm := (recsOfFiles_eq_nil nm _).mp hpr
  have hbranch : ¬ st.pendingFiles.getLast?.map File.name = some nm := by
    intro hcon
    cases hlast : st.pendingFiles.getLast? with
    | none => rw [hlast] at hcon; simp at hcon
    | some b =>
      rw [hlast] at hcon
      simp only [Option.map_some', Option.some.injEq] at hcon
      exact hnames b (List.mem_of_getLast?_eq_some hlast) hcon
  unfold appendFilePart
  rw [if_neg hbranch]
  have hst1good : goodState ⟨st.pendingFiles ++ [⟨nm, data, 0, s, t⟩],
      st.pendingSize + data.length, st.out⟩ := by
    constructor
    · intro nm2
      have hcomb : combinedRecords nm2 ⟨st.pendingFiles ++ [⟨nm, data, 0, s, t⟩],
          st.pendingSize + data.length, st.out⟩ =
          combinedRecords nm2 st ++ recsOfFiles nm2 [⟨nm, data, 0, s, t⟩] := by
        unfold combinedRecords fileRecords pendingRecords
        rw [recsOfFiles_append]
        simp [List.append_assoc]
      rw [hcomb]
      by_cases h2 : nm2 = nm
      · subst h2
        rw [habs, List.nil_append]
        have : recsOfFiles nm2 [⟨nm2, data, 0, s, t⟩] = [(0, data)] := by
          simp [recsOfFiles, List.filter_cons]
        rw [this]
        exact ⟨List.chain'_singleton _, by intro a ha; simp at ha; exact ha ▸ rfl⟩
      · have : recsOfFiles nm2 [⟨nm, data, 0, s, t⟩] = [] := by
          rw [recsOfFiles_eq_nil]
          intro g hg
          have : g = ⟨nm, data, 0, s, t⟩ := by simpa using hg
          rw [this]
          intro hcon
          exact h2 hcon.symm
          -- g.name = nm ≠ nm2
        rw [this, List.append_nil]
        exact hchain nm2
    · rw [List.map_append]
      rw [List.nodup_append]
      refine ⟨hnd, by simp, ?_⟩
      intro a ha
      simp only [List.map_cons, List.map_nil, List.mem_singleton]
      intro hcon
      obtain ⟨g, hg, hgname⟩ := List.mem_map.mp ha
      exact hnames g hg (by rw [hgname, hcon])
  have hst1absent : ∀ nm2, nm2 ≠ nm → combinedRecords nm2 st = [] →
      combinedRecords nm2 ⟨st.pendingFiles ++ [⟨nm, data, 0, s, t⟩],
        st.pendingSize + data.length, st.out⟩ = [] := by
    intro nm2 hne h2
    have hcomb : combinedRecords nm2 ⟨st.pendingFiles ++ [⟨nm, data, 0, s, t⟩],
        st.pendingSize + data.length, st.out⟩ =
        combinedRecords nm2 st ++ recsOfFiles nm2 [⟨nm, data, 0, s, t⟩] := by
      unfold combinedRecords fileRecords pendingRecords
      rw [recsOfFiles_append]
      simp [List.append_assoc]
    rw [hcomb, h2, List.nil_append, recsOfFiles_eq_nil]
    intro g hg
    have : g = ⟨nm, data, 0, s, t⟩ := by simpa using hg
    rw [this]
    intro hcon
    exact hne hcon.symm
  obtain ⟨hg1, hg2⟩ := flushIfNeededFuel_good_absent C _ _ hst1good
  exact ⟨hg1, fun nm2 hne h2 => hg2 nm2 (hst1absent nm2 hne h2)⟩

theorem foldl_appendFileBytes_good (C : Nat) : ∀ (inputs : List InputFile) (st : BuilderState),
    goodState st → (inputs.map InputFile.name).Nodup →
    (∀ inp ∈ inputs, combinedRecords inp.name st = []) →
    goodState (inputs.foldl (fun s f => appendFileBytes C f s) st)
  | [], st, h, _, _ => h
  | inp :: rest, st, h, hnd, habs => by
    rw [List.map_cons, List.nodup_cons] at hnd
    have hstep := appendFilePart_good_absent C inp.name (normalizeEOL inp.raw)
      inp.lastWriteTime inp.fileSize st h (habs inp (by simp))
    rw [List.foldl_cons]
    exact foldl_appendFileBytes_good C rest _ hstep.1 hnd.2 (fun f hf =>
      hstep.2 f.name (fun hcon => hnd.1 (hcon ▸ List.mem_map.mpr ⟨f, hf, rfl⟩)) (habs f (by simp [hf])))

theorem initialState_good : goodState initialState :=
  ⟨fun nm => ⟨List.chain'_nil, by intro a ha; simp [combinedRecords, fileRecords, pendingRecords, recsOfFiles, initialState] at ha⟩,
    by simp [initialState]⟩

theorem buildStore_goodState (C : Nat) (inputs : List InputFile)
    (hnd : (inputs.map InputFile.name).Nodup) : goodState (buildStore C inputs) := by
  have h1 := foldl_appendFileBytes_good C inputs initialState initialState_good hnd
    (fun inp _ => by simp [combinedRecords, fileRecords, pendingRecords, recsOfFiles, initialState])
  exact (flushAllFuel_good_absent C _ _ h1).1

theorem chainFrom0_append_left {l1 l2 : List (Nat × List Nat)}
    (h : chainFrom0 (l1 ++ l2)) : chainFrom0 l1 := by
  obtain ⟨hc, hh⟩ := h
  unfold chainRecords at hc
  rw [List.chain'_append] at hc
  refine ⟨hc.1, ?_⟩
  intro a ha
  apply hh
  cases l1 with
  | nil => simp at ha
  | cons x xs => simpa using ha

theorem chainRecords_get_step {l : List (Nat × List Nat)} (h : chainRecords l)
    (i : Nat) (hi1 : i + 1 < l.length) (hi0 : i < l.length) :
    (l.get ⟨i + 1, hi1⟩).1 =
      (l.get ⟨i, hi0⟩).1 + max 1 ((l.get ⟨i, hi0⟩).2.count 10) := by
  unfold chainRecords at h
  rw [List.chain'_iff_get] at h
  exact h i (by omega)

theorem chainRecords_get_mono {l : List (Nat × List Nat)} (h : chainRecords l) :
    ∀ (j i : Nat) (hi : i < l.length) (hj : j < l.length), i < j →
      (l.get ⟨i, hi⟩).1 < (l.get ⟨j, hj⟩).1
  | 0, i, hi, hj, hij => by omega
  | j + 1, i, hi, hj, hij => by
    have hj0 : j < l.length := by omega
    have hstep := chainRecords_get_step h j hj hj0
    have hmax : 1 ≤ max 1 ((l.get ⟨j, hj0⟩).2.count 10) := le_max_left _ _
    by_cases hij2 : i = j
    · subst hij2
      have hsame : l.get ⟨i, hi⟩ = l.get ⟨i, hj0⟩ := rfl
      rw [hsame, hstep]
      omega
    · have hlt := chainRecords_get_mono h j i hi hj0 (by omega)
      rw [hstep]
      omega

theorem chainFrom0_get_sum {l : List (Nat × List Nat)} (h : chainFrom0 l) :
    ∀ (i : Nat) (hi : i < l.length),
      (∀ (j : Nat) (hj : j < l.length), j < i → 0 < (l.get ⟨j, hj⟩).2.count 10) →
      (l.get ⟨i, hi⟩).1 = ((l.take i).map (fun r => r.2.count 10)).sum
  | 0, hi, _ => by
    obtain ⟨-, hh⟩ := h
    have h0 : l.head? = some (l.get ⟨0, hi⟩) := by
      cases l with
      | nil => simp at hi
      | cons x xs => rfl
    have hz := hh _ h0
    simpa using hz
  | i + 1, hi, hcnt => by
    obtain ⟨hc, hh0⟩ := h
    have hi0 : i < l.length := by omega
    have hstep := chainRecords_get_step hc i hi hi0
    have hih := chainFrom0_get_sum ⟨hc, hh0⟩ i hi0 (fun j hj hji => hcnt j hj (by omega))
    have hcur : 0 < (l.get ⟨i, hi0⟩).2.count 10 := hcnt i hi0 (by omega)
    have hmax : max 1 ((l.get ⟨i, hi0⟩).2.count 10) = (l.get ⟨i, hi0⟩).2.count 10 := by
      omega
    have htake : ((l.take (i + 1)).map (fun r => r.2.count 10)).sum =
        ((l.take i).map (fun r => r.2.count 10)).sum + (l.get ⟨i, hi0⟩).2.count 10 := by
      rw [List.take_succ, List.getElem?_eq_getElem hi0, Option.toList_some,
        List.map_append, List.sum_append, List.map_cons, List.map_nil, List.sum_cons,
        List.sum_nil, List.get_eq_getElem]
      simp
    rw [hstep, hih, hmax, htake]

/-- A build of two files where the first is a newline-free line of at least
`2·C` bytes: the first file is flushed whole (the long-line fallback) leaving
an empty continuation record with `startLine = 1`, which is later written in
front of the second file's record. -/
theorem buildStore_two_file_fallback (C : Nat) (hC : 0 < C) (nm nm2 : String)
    (hne : ¬ nm = nm2) (data : List Nat) (t s : Nat)
    (hnorm : normalizeEOL data = data) (h10 : data.count 10 = 0)
    (h2C : C * 2 ≤ data.length) (data2 : List Nat) (t2 s2 : Nat)
    (hnorm2 : normalizeEOL data2 = data2) (hpos2 : 0 < data2.length)
    (hlen2 : data2.length ≤ C) (hsmall2 : data2.length < C * 2) :
    buildStore C [⟨nm, data, t, s⟩, ⟨nm2, data2, t2, s2⟩] =
      ⟨[], 0,
        [OutRecord.builtChunk ⟨[⟨nm, data, 0, s, t⟩], data.length⟩,
          OutRecord.builtChunk ⟨[⟨nm, [], 1, s, t⟩, ⟨nm2, data2, 0, s2, t2⟩],
            data2.length⟩]⟩ := by
  have hlen : C < data.length := by omega
  have happend1 : appendFileBytes C ⟨nm, data, t, s⟩ initialState =
      flushIfNeeded C ⟨[⟨nm, data, 0, s, t⟩], data.length, []⟩ := by
    unfold appendFileBytes appendFilePart initialState
    rw [hnorm]
    simp
  have hfc1 : flushChunkSize C ⟨[⟨nm, data, 0, s, t⟩], data.length, []⟩ =
      ⟨[⟨nm, [], 1, s, t⟩], 0,
        [OutRecord.builtChunk ⟨[⟨nm, data, 0, s, t⟩], data.length⟩]⟩ := by
    rw [flushChunkSize_long_head C hC ⟨nm, data, 0, s, t⟩ [] data.length [] h10 hlen]
    simp [Nat.sub_self]
  have e1 : flushIfNeeded C ⟨[⟨nm, data, 0, s, t⟩], data.length, []⟩ =
      ⟨[⟨nm, [], 1, s, t⟩], 0,
        [OutRecord.builtChunk ⟨[⟨nm, data, 0, s, t⟩], data.length⟩]⟩ := by
    have hf1 : flushIfNeededFuel C 1 ⟨[⟨nm, data, 0, s, t⟩], data.length, []⟩ =
        ⟨[⟨nm, [], 1, s, t⟩], 0,
          [OutRecord.builtChunk ⟨[⟨nm, data, 0, s, t⟩], data.length⟩]⟩ := by
      rw [show (1 : Nat) = 0 + 1 from rfl, flushIfNeededFuel_step C 0 _ h2C, hfc1]
      rfl
    have hstable := flushIfNeeded_eq_of_fuel C 1 ⟨[⟨nm, data, 0, s, t⟩], data.length, []⟩
      (by show 1 ≤ data.length + 1; omega) (by rw [hf1]; show (0 : Nat) < C * 2; omega)
    rw [hf1] at hstable
    exact hstable
  have happend2 : appendFileBytes C ⟨nm2, data2, t2, s2⟩
      ⟨[⟨nm, [], 1, s, t⟩], 0,
        [OutRecord.builtChunk ⟨[⟨nm, data, 0, s, t⟩], data.length⟩]⟩ =
      flushIfNeeded C ⟨[⟨nm, [], 1, s, t⟩, ⟨nm2, data2, 0, s2, t2⟩], data2.length,
        [OutRecord.builtChunk ⟨[⟨nm, data, 0, s, t⟩], data.length⟩]⟩ := by
    unfold appendFileBytes appendFilePart
    rw [hnorm2]
    simp [hne]
  have e2 : flushIfNeeded C ⟨[⟨nm, [], 1, s, t⟩, ⟨nm2, data2, 0, s2, t2⟩], data2.length,
      [OutRecord.builtChunk ⟨[⟨nm, data, 0, s, t⟩], data.length⟩]⟩ =
      ⟨[⟨nm, [], 1, s, t⟩, ⟨nm2, data2, 0, s2, t2⟩], data2.length,
        [OutRecord.builtChunk ⟨[⟨nm, data, 0, s, t⟩], data.length⟩]⟩ :=
    flushIfNeeded_done C _ (by show data2.length < C * 2; exact hsmall2)
  have hloop : flushChunkLoop C ⟨[], 0⟩ [⟨nm, [], 1, s, t⟩, ⟨nm2, data2, 0, s2, t2⟩] =
      (⟨[⟨nm, [], 1, s, t⟩, ⟨nm2, data2, 0, s2, t2⟩], data2.length⟩, []) := by
    have ha1 : appendChunkFile ⟨[], 0⟩ ⟨nm, [], 1, s, t⟩ = ⟨[⟨nm, [], 1, s, t⟩], 0⟩ := by
      simp [appendChunkFile]
    have ha2 : appendChunkFile ⟨[⟨nm, [], 1, s, t⟩], 0⟩ ⟨nm2, data2, 0, s2, t2⟩ =
        ⟨[⟨nm, [], 1, s, t⟩, ⟨nm2, data2, 0, s2, t2⟩], data2.length⟩ := by
      simp [appendChunkFile]
    simp only [flushChunkLoop]
    rw [if_pos (show (⟨[], 0⟩ : Chunk).totalSize < C from hC),
      if_pos (show (⟨nm, [], 1, s, t⟩ : File).contents.length ≤
        C - (⟨[], 0⟩ : Chunk).totalSize by simp)]
    rw [ha1]
    simp only [flushChunkLoop]
    rw [if_pos (show (⟨[⟨nm, [], 1, s, t⟩], 0⟩ : Chunk).totalSize < C from hC),
      if_pos (show (⟨nm2, data2, 0, s2, t2⟩ : File).contents.length ≤
        C - (⟨[⟨nm, [], 1, s, t⟩], 0⟩ : Chunk).totalSize by simpa using hlen2)]
    rw [ha2]
  have hfc2 : flushChunkSize C
      ⟨[⟨nm, [], 1, s, t⟩, ⟨nm2, data2, 0, s2, t2⟩], data2.length,
        [OutRecord.builtChunk ⟨[⟨nm, data, 0, s, t⟩], data.length⟩]⟩ =
      ⟨[], 0,
        [OutRecord.builtChunk ⟨[⟨nm, data, 0, s, t⟩], data.length⟩,
          OutRecord.builtChunk ⟨[⟨nm, [], 1, s, t⟩, ⟨nm2, data2, 0, s2, t2⟩],
            data2.length⟩]⟩ := by
    simp [flushChunkSize, hloop, flushChunkEmit]
  unfold buildStore
  simp only [List.foldl_cons, List.foldl_nil]
  rw [happend1, e1, happend2, e2]
  unfold flushAll
  rw [show (⟨[⟨nm, [], 1, s, t⟩, ⟨nm2, data2, 0, s2, t2⟩], data2.length,
      [OutRecord.builtChunk ⟨[⟨nm, data, 0, s, t⟩], data.length⟩]⟩ :
      BuilderState).pendingSize + 1 = data2.length + 1 from rfl]
  rw [flushAllFuel_step C data2.length _ (by show 0 < data2.length; omega), hfc2]
  exact flushAllFuel_done C _ _ rfl

/-- C9 counterexample: start lines of a split file's records are NOT in general
the newline count of the earlier records.  With `C = kChunkSize`, a first file
of `2·C` bytes of `'a'` (no newline) is flushed whole by the long-line fallback,
which advances the continuation record's `start_line` to 1 even though the
flushed record contains **zero** `'\n'` bytes; the empty continuation record is
written into the next chunk (in front of a second file), so the file's written
records are `(0, data)` and `(1, [])` while the claim demands a second
`start_line` of 0. -/
theorem C9_counterexample :
    fileRecords "f" (buildStore kChunkSize
        [⟨"f", List.replicate (2 * kChunkSize) 97, 0, 2 * kChunkSize⟩,
          ⟨"g", [98, 10], 0, 2⟩]) =
      [(0, List.replicate (2 * kChunkSize) 97), (1, [])] ∧
    (List.replicate (2 * kChunkSize) 97).count 10 = 0 ∧ (1 : Nat) ≠ 0 := by
  have h := buildStore_two_file_fallback kChunkSize (by norm_num [kChunkSize]) "f" "g"
    (by decide) (List.replicate (2 * kChunkSize) 97) 0 (2 * kChunkSize)
    (normalizeEOL_of_no_cr _ (by rw [List.count_replicate]; norm_num))
    (by rw [List.count_replicate]; norm_num)
    (by rw [List.length_replicate]; omega)
    [98, 10] 0 2 rfl (by norm_num) (by norm_num [kChunkSize]) (by norm_num [kChunkSize])
  rw [h]
  refine ⟨?_, by rw [List.count_replicate]; norm_num, by decide⟩
  simp [fileRecords, outChunkFiles, recsOfFiles]

/-- C9 amended: for any build (over distinctly named inputs) and any file `nm`,
the `start_line` values of `nm`'s successive records in the written chunks are
strictly increasing, and — provided every earlier record of the file contains
at least one `'\n'` — each record's `start_line` equals the total number of
`'\n'` bytes in all of that file's earlier records.  (Without the proviso the
long-line fallback advances `start_line` by 1 past a newline-free record, as
the counterexample shows.) -/
theorem C9_amended (C : Nat) (inputs : List InputFile)
    (hnd : (inputs.map InputFile.name).Nodup) (nm : String) (i j : Nat)
    (hi : i < (fileRecords nm (buildStore C inputs)).length)
    (hj : j < (fileRecords nm (buildStore C inputs)).length) (hij : i < j) :
    ((fileRecords nm (buildStore C inputs)).get ⟨i, hi⟩).1 <
      ((fileRecords nm (buildStore C inputs)).get ⟨j, hj⟩).1 ∧
    ((∀ (q : Nat) (hq : q < (fileRecords nm (buildStore C inputs)).length), q < j →
        0 < ((fileRecords nm (buildStore C inputs)).get ⟨q, hq⟩).2.count 10) →
      ((fileRecords nm (buildStore C inputs)).get ⟨j, hj⟩).1 =
        (((fileRecords nm (buildStore C inputs)).take j).map
          (fun r => r.2.count 10)).sum) := by
  obtain ⟨hchain, -⟩ := buildStore_goodState C inputs hnd
  have hch : chainFrom0 (fileRecords nm (buildStore C inputs)) :=
    chainFrom0_append_left (hchain nm)
  obtain ⟨hcr, hh0⟩ := hch
  constructor
  · exact chainRecords_get_mono hcr j i hi hj hij
  · intro hall
    exact chainFrom0_get_sum ⟨hcr, hh0⟩ j hj (fun q hq hqj => hall q hq hqj)

/-- Witness for `C9_amended`: `C = 4` over the single file `"a"` with contents
`"x\ny\nz\n"`, whose records are `(0, [120,10,121,10])` and `(2, [122,10])`:
the start lines increase strictly, and the second equals the 2 newlines of the
first record. -/
theorem C9_amended_witness :
    ((fileRecords "a" (buildStore 4 [⟨"a", [120, 10, 121, 10, 122, 10], 0, 6⟩])).get
        ⟨0, by decide⟩).1 <
      ((fileRecords "a" (buildStore 4 [⟨"a", [120, 10, 121, 10, 122, 10], 0, 6⟩])).get
        ⟨1, by decide⟩).1 ∧
    ((fileRecords "a" (buildStore 4 [⟨"a", [120, 10, 121, 10, 122, 10], 0, 6⟩])).get
        ⟨1, by decide⟩).1 =
      (((fileRecords "a" (buildStore 4 [⟨"a", [120, 10, 121, 10, 122, 10], 0, 6⟩])).take
          1).map (fun r => r.2.count 10)).sum :=
  ⟨(C9_amended 4 [⟨"a", [120, 10, 121, 10, 122, 10], 0, 6⟩] (by decide) "a" 0 1
      (by decide) (by decide) (by decide)).1,
    (C9_amended 4 [⟨"a", [120, 10, 121, 10, 122, 10], 0, 6⟩] (by decide) "a" 0 1
      (by decide) (by decide) (by decide)).2 (by decide)⟩

/-! ## Pending-size accuracy and drainage of the flush loops (toward C2) -/

theorem sumBytes_append (fs1 fs2 : List File) :
    sumBytes (fs1 ++ fs2) = sumBytes fs1 + sumBytes fs2 := by
  simp [sumBytes]

theorem sumBytes_cons (f : File) (fs : List File) :
    sumBytes (f :: fs) = f.contents.length + sumBytes fs := by
  simp [sumBytes]

theorem sumBytes_eq_zero {fs : List File} (h : sumBytes fs = 0) :
    ∀ f ∈ fs, f.contents = [] := by
  intro f hf
  rw [sumBytes] at h
  have h2 := List.sum_eq_zero_iff.mp h _ (List.mem_map.mpr ⟨f, hf, rfl⟩)
  exact List.length_eq_zero.mp h2

theorem flushChunkLoop_totalSize_mono (size : Nat) : ∀ (pending : List File) (chunk : Chunk),
    chunk.totalSize ≤ (flushChunkLoop size chunk pending).1.totalSize
  | [], chunk => le_refl _
  | f :: rest, chunk => by
    by_cases h1 : chunk.totalSize < size
    · by_cases h2 : f.contents.length ≤ size - chunk.totalSize
      · have ih := flushChunkLoop_totalSize_mono size rest (appendChunkFile chunk f)
        simp only [flushChunkLoop]
        rw [if_pos h1, if_pos h2]
        refine le_trans ?_ ih
        simp [appendChunkFile]
      · have hne : f.contents ≠ [] := fun hemp => h2 (by simp [hemp])
        simp only [flushChunkLoop]
        rw [if_pos h1, if_neg h2]
        rcases appendChunkFileSplit_cases chunk f (size - chunk.totalSize) hne with
          ⟨heq, -⟩ | ⟨k, hk0, hkle, heq⟩
        · rw [heq]
        · rw [heq]
          dsimp only
          omega
    · rw [flushChunkLoop_done size chunk (f :: rest) h1]

theorem flushChunkLoop_bytes (size : Nat) : ∀ (pending : List File) (chunk : Chunk),
    sumBytes (flushChunkLoop size chunk pending).2 +
      (flushChunkLoop size chunk pending).1.totalSize =
      chunk.totalSize + sumBytes pending
  | [], chunk => by simp [flushChunkLoop, sumBytes]
  | f :: rest, chunk => by
    by_cases h1 : chunk.totalSize < size
    · by_cases h2 : f.contents.length ≤ size - chunk.totalSize
      · have ih := flushChunkLoop_bytes size rest (appendChunkFile chunk f)
        simp only [flushChunkLoop]
        rw [if_pos h1, if_pos h2]
        rw [ih]
        simp only [appendChunkFile, sumBytes_cons]
        omega
      · have hne : f.contents ≠ [] := fun hemp => h2 (by simp [hemp])
        simp only [flushChunkLoop]
        rw [if_pos h1, if_neg h2]
        rcases appendChunkFileSplit_cases chunk f (size - chunk.totalSize) hne with
          ⟨heq, -⟩ | ⟨k, hk0, hkle, heq⟩
        · rw [heq]
          dsimp only
          omega
        · rw [heq]
          dsimp only
          simp only [sumBytes_cons, List.length_drop]
          omega
    · rw [flushChunkLoop_done size chunk (f :: rest) h1]
      dsimp only
      omega

theorem flushChunkSize_pendingSizeEq (size : Nat) (st : BuilderState) :
    (flushChunkSize size st).pendingSize =
      st.pendingSize - (flushChunkLoop size ⟨[], 0⟩ st.pendingFiles).1.totalSize := by
  unfold flushChunkSize flushChunkEmit
  by_cases h : (flushChunkLoop size ⟨[], 0⟩ st.pendingFiles).1.files = [] <;> simp [h]

theorem sizeAccurate_flushChunkSize (size : Nat) (st : BuilderState)
    (h : sizeAccurate st) : sizeAccurate (flushChunkSize size st) := by
  unfold sizeAccurate at h ⊢
  rw [flushChunkSize_pendingSizeEq, flushChunkSize_pendingFiles]
  have hb : sumBytes (flushChunkLoop size ⟨[], 0⟩ st.pendingFiles).2 +
      (flushChunkLoop size ⟨[], 0⟩ st.pendingFiles).1.totalSize =
      sumBytes st.pendingFiles := by
    have h0 := flushChunkLoop_bytes size st.pendingFiles ⟨[], 0⟩
    simpa using h0
  omega

theorem sizeAccurate_flushIfNeededFuel (C : Nat) : ∀ (fuel : Nat) (st : BuilderState),
    sizeAccurate st → sizeAccurate (flushIfNeededFuel C fuel st)
  | 0, st, h => h
  | fuel + 1, st, h => by
    by_cases hc : C * 2 ≤ st.pendingSize
    · rw [flushIfNeededFuel_step C fuel st hc]
      exact sizeAccurate_flushIfNeededFuel C fuel _ (sizeAccurate_flushChunkSize C st h)
    · rw [flushIfNeededFuel_done C (fuel + 1) st (by omega)]
      exact h

theorem sizeAccurate_flushAllFuel (C : Nat) : ∀ (fuel : Nat) (st : BuilderState),
    sizeAccurate st → sizeAccurate (flushAllFuel C fuel st)
  | 0, st, h => h
  | fuel + 1, st, h => by
    by_cases hc : 0 < st.pendingSize
    · rw [flushAllFuel_step C fuel st hc]
      exact sizeAccurate_flushAllFuel C fuel _ (sizeAccurate_flushChunkSize C st h)
    · rw [flushAllFuel_done C (fuel + 1) st (by omega)]
      exact h

theorem sumBytes_extendBack (data : List Nat) : ∀ (fs : List File), fs ≠ [] →
    sumBytes (extendBack data fs) = sumBytes fs + data.length
  | [], h => absurd rfl h
  | [f], _ => by simp [extendBack, sumBytes]
  | f :: g :: rest, _ => by
    simp only [extendBack]
    rw [sumBytes_cons, sumBytes_cons, sumBytes_extendBack data (g :: rest) (by simp)]
    omega

theorem sizeAccurate_appendFilePart (C : Nat) (nm : String) (data : List Nat)
    (t s : Nat) (st : BuilderState) (h : sizeAccurate st) :
    sizeAccurate (appendFilePart C nm 0 data t s st) := by
  unfold appendFilePart flushIfNeeded
  apply sizeAccurate_flushIfNeededFuel
  by_cases hb : st.pendingFiles.getLast?.map File.name = some nm
  · rw [if_pos hb]
    unfold sizeAccurate at h ⊢
    dsimp only
    have hne : st.pendingFiles ≠ [] := by
      intro h0
      rw [h0] at hb
      simp at hb
    rw [sumBytes_extendBack data st.pendingFiles hne]
    omega
  · rw [if_neg hb]
    unfold sizeAccurate at h ⊢
    dsimp only
    rw [sumBytes_append, sumBytes_cons]
    have hnil : sumBytes ([] : List File) = 0 := rfl
    rw [hnil]
    dsimp only
    omega

theorem sizeAccurate_fold (C : Nat) : ∀ (inputs : List InputFile) (st : BuilderState),
    sizeAccurate st → sizeAccurate (inputs.foldl (fun s f => appendFileBytes C f s) st)
  | [], _, h => h
  | inp :: rest, st, h => by
    rw [List.foldl_cons]
    exact sizeAccurate_fold C rest _
      (sizeAccurate_appendFilePart C inp.name (normalizeEOL inp.raw)
        inp.lastWriteTime inp.fileSize st h)

theorem skipByLines_fst_zero {l : List Nat} (h : (skipByLines l).1 = 0) :
    l.count 10 = 0 := by
  rcases skipByLines_spec l with ⟨h0, -⟩ | ⟨-, hpos, -, -, -⟩
  · exact h0
  · omega

theorem skipOneLine_ge : ∀ (l : List Nat) (k : Nat), (l.take k).count 10 = 0 →
    k < l.length → k + 1 ≤ skipOneLine l
  | [], k, _, hk => by simp at hk
  | b :: rest, 0, _, _ => by
    have := skipOneLine_pos (b :: rest) (by simp)
    omega
  | b :: rest, k + 1, hcnt, hk => by
    have hb : ¬ b = 10 := by
      intro hb10
      subst hb10
      rw [List.take_succ_cons] at hcnt
      simp [List.count_cons] at hcnt
    rw [List.take_succ_cons] at hcnt
    simp [List.count_cons, hb] at hcnt
    have ih := skipOneLine_ge rest k hcnt (by simpa using hk)
    rw [show skipOneLine (b :: rest) = 1 + skipOneLine rest from by simp [skipOneLine, hb]]
    omega

theorem appendChunkFileSplit_total (chunk : Chunk) (f : File) (rem : Nat) :
    (appendChunkFileSplit chunk f rem = (chunk, f) ∧
      (skipByLines (f.contents.take rem)).1 = 0 ∧ chunk.files ≠ []) ∨
    (0 < (skipByLines (f.contents.take rem)).1 ∧
      (appendChunkFileSplit chunk f rem).1.totalSize =
        chunk.totalSize + (skipByLines (f.contents.take rem)).1) ∨
    ((skipByLines (f.contents.take rem)).1 = 0 ∧ chunk.files = [] ∧
      (appendChunkFileSplit chunk f rem).1.totalSize =
        chunk.totalSize + skipOneLine f.contents) := by
  by_cases hskip : 0 < (skipByLines (f.contents.take rem)).1
  · refine Or.inr (Or.inl ⟨hskip, ?_⟩)
    rw [appendChunkFileSplit]
    simp [hskip]
  · by_cases hfe : chunk.files = []
    · refine Or.inr (Or.inr ⟨by omega, hfe, ?_⟩)
      rw [appendChunkFileSplit]
      simp [hskip, hfe]
    · refine Or.inl ⟨?_, by omega, hfe⟩
      rw [appendChunkFileSplit]
      simp [hskip, hfe]

theorem flushChunkLoop_noprog (size : Nat) : ∀ (pending : List File) (chunk : Chunk),
    chunk.totalSize < size →
    (flushChunkLoop size chunk pending).1.totalSize = chunk.totalSize →
    ((flushChunkLoop size chunk pending).2 = [] ∧ sumBytes pending = 0) ∨
    (∃ X rest2, (flushChunkLoop size chunk pending).2 = X :: rest2 ∧
      size - chunk.totalSize < X.contents.length ∧
      (X.contents.take (size - chunk.totalSize)).count 10 = 0)
  | [], chunk, _, _ => Or.inl ⟨rfl, rfl⟩
  | f :: rest, chunk, hlt, hnp => by
    by_cases h2 : f.contents.length ≤ size - chunk.totalSize
    · have hloopeq : flushChunkLoop size chunk (f :: rest) =
          flushChunkLoop size (appendChunkFile chunk f) rest := by
        simp only [flushChunkLoop]
        rw [if_pos hlt, if_pos h2]
      rw [hloopeq] at hnp ⊢
      have hmono := flushChunkLoop_totalSize_mono size rest (appendChunkFile chunk f)
      have hts' : (appendChunkFile chunk f).totalSize =
          chunk.totalSize + f.contents.length := rfl
      have hlen0 : f.contents.length = 0 := by omega
      have hts : (appendChunkFile chunk f).totalSize = chunk.totalSize := by omega
      rcases flushChunkLoop_noprog size rest (appendChunkFile chunk f)
          (by omega) (by omega) with ⟨hres, hsum⟩ | ⟨X, rest2, hres, hXlen, hXcnt⟩
      · left
        refine ⟨hres, ?_⟩
        rw [sumBytes_cons]
        omega
      · right
        rw [hts] at hXlen hXcnt
        exact ⟨X, rest2, hres, hXlen, hXcnt⟩
    · have hloopeq : flushChunkLoop size chunk (f :: rest) =
          ((appendChunkFileSplit chunk f (size - chunk.totalSize)).1,
            (appendChunkFileSplit chunk f (size - chunk.totalSize)).2 :: rest) := by
        simp only [flushChunkLoop]
        rw [if_pos hlt, if_neg h2]
      rw [hloopeq] at hnp ⊢
      dsimp only at hnp ⊢
      rcases appendChunkFileSplit_total chunk f (size - chunk.totalSize) with
        ⟨heq, hsk0, -⟩ | ⟨hskippos, htot⟩ | ⟨-, -, htot⟩
      · rw [heq]
        dsimp only
        right
        exact ⟨f, rest, rfl, by omega, skipByLines_fst_zero hsk0⟩
      · omega
      · have hne : f.contents ≠ [] := fun hemp => h2 (by simp [hemp])
        have hpos := skipOneLine_pos f.contents hne
        omega

theorem flushChunkSize_after_stall (C : Nat) (hC : 0 < C) (st : BuilderState)
    (X : File) (rest : List File) (hacc : sizeAccurate st)
    (hpend : st.pendingFiles = X :: rest)
    (hXlen : C < X.contents.length)
    (hXcnt : (X.contents.take C).count 10 = 0) :
    (flushChunkSize C st).pendingSize + (C + 1) ≤ st.pendingSize := by
  have hsk : skipByLines (X.contents.take C) = (0, 0) := skipByLines_no_nl _ hXcnt
  have hloop : flushChunkLoop C ⟨[], 0⟩ (X :: rest) =
      ((appendChunkFileSplit ⟨[], 0⟩ X C).1,
        (appendChunkFileSplit ⟨[], 0⟩ X C).2 :: rest) := by
    simp only [flushChunkLoop]
    rw [if_pos (show (⟨[], 0⟩ : Chunk).totalSize < C from hC),
      if_neg (show ¬ X.contents.length ≤ C - (⟨[], 0⟩ : Chunk).totalSize by
        show ¬ X.contents.length ≤ C - 0
        omega)]
    rw [Nat.sub_zero]
  have htot : (appendChunkFileSplit ⟨[], 0⟩ X C).1.totalSize = skipOneLine X.contents := by
    rcases appendChunkFileSplit_total ⟨[], 0⟩ X C with
      ⟨-, -, hfne⟩ | ⟨hskippos, -⟩ | ⟨-, -, ht⟩
    · exact absurd rfl hfne
    · rw [hsk] at hskippos
      simp at hskippos
    · rw [ht]
      simp
  have hge := skipOneLine_ge X.contents C hXcnt hXlen
  have hle := skipOneLine_le X.contents
  unfold sizeAccurate at hacc
  rw [flushChunkSize_pendingSizeEq, hpend, hloop]
  dsimp only
  rw [htot]
  rw [hpend, sumBytes_cons] at hacc
  omega

theorem flushAllFuel_drains (C : Nat) (hC : 0 < C) : ∀ (fuel : Nat) (st : BuilderState),
    sizeAccurate st → st.pendingSize + 1 ≤ fuel →
    (flushAllFuel C fuel st).pendingSize = 0 := by
  intro fuel
  induction fuel using Nat.strong_induction_on with
  | _ fuel ih =>
    intro st hacc hfuel
    rcases Nat.eq_zero_or_pos st.pendingSize with hP | hP
    · rw [flushAllFuel_done C fuel st hP]
      exact hP
    · obtain ⟨f, rfl⟩ : ∃ f, fuel = f + 1 := ⟨fuel - 1, by omega⟩
      rw [flushAllFuel_step C f st hP]
      have hacc1 : sizeAccurate (flushChunkSize C st) :=
        sizeAccurate_flushChunkSize C st hacc
      have hle1 : (flushChunkSize C st).pendingSize ≤ st.pendingSize := by
        rw [flushChunkSize_pendingSizeEq]
        omega
      rcases lt_or_eq_of_le hle1 with hlt | heqP
      · exact ih f (by omega) _ hacc1 (by omega)
      · have htot0 : (flushChunkLoop C ⟨[], 0⟩ st.pendingFiles).1.totalSize = 0 := by
          have hP2 := flushChunkSize_pendingSizeEq C st
          have hb := flushChunkLoop_bytes C st.pendingFiles ⟨[], 0⟩
          unfold sizeAccurate at hacc
          omega
        rcases flushChunkLoop_noprog C st.pendingFiles ⟨[], 0⟩
            (show (⟨[], 0⟩ : Chunk).totalSize < C from hC) htot0 with
          ⟨hres, hsum0⟩ | ⟨X, rest2, hres, hXlen, hXcnt⟩
        · unfold sizeAccurate at hacc
          omega
        · have hpend1 : (flushChunkSize C st).pendingFiles = X :: rest2 := by
            rw [flushChunkSize_pendingFiles, hres]
          obtain ⟨f2, rfl⟩ : ∃ f2, f = f2 + 1 := ⟨f - 1, by omega⟩
          rw [flushAllFuel_step C f2 _ (by omega)]
          have hstall := flushChunkSize_after_stall C hC (flushChunkSize C st) X rest2
            hacc1 hpend1 hXlen hXcnt
          exact ih f2 (by omega) _ (sizeAccurate_flushChunkSize C _ hacc1) (by omega)

theorem buildStore_pendingSize (C : Nat) (hC : 0 < C) (inputs : List InputFile) :
    (buildStore C inputs).pendingSize = 0 := by
  unfold buildStore flushAll
  exact flushAllFuel_drains C hC _ _ (sizeAccurate_fold C inputs initialState rfl)
    (le_refl _)

theorem buildStore_pending_empty (C : Nat) (hC : 0 < C) (inputs : List InputFile) :
    ∀ f ∈ (buildStore C inputs).pendingFiles, f.contents = [] := by
  have hacc : sizeAccurate (buildStore C inputs) := by
    unfold buildStore flushAll
    exact sizeAccurate_flushAllFuel C _ _ (sizeAccurate_fold C inputs initialState rfl)
  have hP := buildStore_pendingSize C hC inputs
  unfold sizeAccurate at hacc
  exact sumBytes_eq_zero (by omega)

/-! ## The records of one newline-free file through the packer (toward C2) -/

theorem recsOfFiles_singleton_ne (nm : String) (f : File) (h : ¬ f.name = nm) :
    recsOfFiles nm [f] = [] := by
  rw [recsOfFiles_eq_nil]
  intro g hg
  have hg2 : g = f := by simpa using hg
  rw [hg2]
  exact h

theorem recsOfFiles_singleton_eq (nm : String) (f : File) (h : f.name = nm) :
    recsOfFiles nm [f] = [(f.startLine, f.contents)] := by
  simp [recsOfFiles, List.filter_cons, h]

theorem flushChunkLoop_recs_none (nm : String) (size : Nat) :
    ∀ (pending : List File) (chunk : Chunk), recsOfFiles nm pending = [] →
    recsOfFiles nm (flushChunkLoop size chunk pending).1.files =
      recsOfFiles nm chunk.files ∧
    recsOfFiles nm (flushChunkLoop size chunk pending).2 = []
  | [], chunk, _ => ⟨rfl, rfl⟩
  | f :: rest, chunk, hn => by
    have hfnm : ¬ f.name = nm := (recsOfFiles_eq_nil nm (f :: rest)).mp hn f (by simp)
    have hrest : recsOfFiles nm rest = [] := by
      rw [recsOfFiles_eq_nil] at hn ⊢
      intro g hg
      exact hn g (by simp [hg])
    by_cases h1 : chunk.totalSize < size
    · by_cases h2 : f.contents.length ≤ size - chunk.totalSize
      · have ih := flushChunkLoop_recs_none nm size rest (appendChunkFile chunk f) hrest
        have hloopeq : flushChunkLoop size chunk (f :: rest) =
            flushChunkLoop size (appendChunkFile chunk f) rest := by
          simp only [flushChunkLoop]
          rw [if_pos h1, if_pos h2]
        rw [hloopeq]
        refine ⟨?_, ih.2⟩
        rw [ih.1]
        rw [show (appendChunkFile chunk f).files = chunk.files ++ [f] from rfl]
        rw [recsOfFiles_append, recsOfFiles_singleton_ne nm f hfnm, List.append_nil]
      · have hne : f.contents ≠ [] := fun hemp => h2 (by simp [hemp])
        have hloopeq : flushChunkLoop size chunk (f :: rest) =
            ((appendChunkFileSplit chunk f (size - chunk.totalSize)).1,
              (appendChunkFileSplit chunk f (size - chunk.totalSize)).2 :: rest) := by
          simp only [flushChunkLoop]
          rw [if_pos h1, if_neg h2]
        rw [hloopeq]
        rcases appendChunkFileSplit_cases chunk f (size - chunk.totalSize) hne with
          ⟨heq, -⟩ | ⟨k, hk0, hkle, heq⟩
        · rw [heq]
          dsimp only
          exact ⟨rfl, hn⟩
        · rw [heq]
          dsimp only
          constructor
          · rw [recsOfFiles_append]
            have hpre : recsOfFiles nm [{ f with contents := f.contents.take k }] = [] :=
              recsOfFiles_singleton_ne nm _ hfnm
            rw [hpre, List.append_nil]
          · rw [recsOfFiles_cons]
            simp only [hfnm, reduceIte, List.nil_append]
            exact hrest
    · rw [flushChunkLoop_done size chunk (f :: rest) h1]
      exact ⟨rfl, hn⟩

theorem flushChunkLoop_recs_one (nm : String) (size : Nat) (data : List Nat)
    (h10 : data.count 10 = 0) (hlen : size < data.length) :
    ∀ (pending : List File) (chunk : Chunk),
    recsOfFiles nm pending = [(0, data)] →
    recsOfFiles nm chunk.files = [] →
    (recsOfFiles nm (flushChunkLoop size chunk pending).1.files = [] ∧
      recsOfFiles nm (flushChunkLoop size chunk pending).2 = [(0, data)]) ∨
    (recsOfFiles nm (flushChunkLoop size chunk pending).1.files = [(0, data)] ∧
      recsOfFiles nm (flushChunkLoop size chunk pending).2 = [(1, [])])
  | [], _, hp, _ => absurd hp (by simp [recsOfFiles])
  | f :: rest, chunk, hp, hc => by
    rw [recsOfFiles_cons] at hp
    by_cases hfnm : f.name = nm
    · rw [if_pos hfnm] at hp
      have hfl : f.startLine = 0 ∧ f.contents = data ∧ recsOfFiles nm rest = [] := by
        simp only [List.singleton_append, List.cons.injEq, Prod.mk.injEq] at hp
        exact ⟨hp.1.1, hp.1.2, hp.2⟩
      obtain ⟨hsl, hdat, hrest⟩ := hfl
      by_cases h1 : chunk.totalSize < size
      · by_cases h2 : f.contents.length ≤ size - chunk.totalSize
        · rw [hdat] at h2
          omega
        · have hne : f.contents ≠ [] := fun hemp => h2 (by simp [hemp])
          have hloopeq : flushChunkLoop size chunk (f :: rest) =
              ((appendChunkFileSplit chunk f (size - chunk.totalSize)).1,
                (appendChunkFileSplit chunk f (size - chunk.totalSize)).2 :: rest) := by
            simp only [flushChunkLoop]
            rw [if_pos h1, if_neg h2]
          rw [hloopeq]
          have hcnt : (f.contents.take (size - chunk.totalSize)).count 10 = 0 := by
            rw [hdat]
            exact count_take_zero h10 _
          by_cases hfe : chunk.files = []
          · have hsb : skipByLines (f.contents.take (size - chunk.totalSize)) = (0, 0) :=
              skipByLines_no_nl _ hcnt
            have hsplit : appendChunkFileSplit chunk f (size - chunk.totalSize) =
                (⟨chunk.files ++ [f], chunk.totalSize + f.contents.length⟩,
                  { f with contents := [], startLine := f.startLine + 1 }) := by
              simp [appendChunkFileSplit, hsb, hfe,
                skipOneLine_no_nl f.contents (by rw [hdat]; exact h10), splitFront,
                List.take_length, List.drop_length]
            rw [hsplit]
            dsimp only
            right
            constructor
            · rw [recsOfFiles_append, hc, List.nil_append,
                recsOfFiles_singleton_eq nm f hfnm, hsl, hdat]
            · rw [recsOfFiles_cons]
              simp [hfnm, hrest, hsl]
          · have hsame : appendChunkFileSplit chunk f (size - chunk.totalSize) =
                (chunk, f) := by
              rcases appendChunkFileSplit_total chunk f (size - chunk.totalSize) with
                ⟨heq, -, -⟩ | ⟨hskippos, -⟩ | ⟨-, hfe2, -⟩
              · exact heq
              · rw [skipByLines_no_nl _ hcnt] at hskippos
                simp at hskippos
              · exact absurd hfe2 hfe
            rw [hsame]
            dsimp only
            left
            refine ⟨hc, ?_⟩
            rw [recsOfFiles_cons, if_pos hfnm, hrest]
            simp [hsl, hdat]
      · rw [flushChunkLoop_done size chunk (f :: rest) h1]
        left
        refine ⟨hc, ?_⟩
        rw [recsOfFiles_cons, if_pos hfnm, hrest]
        simp [hsl, hdat]
    · rw [if_neg hfnm, List.nil_append] at hp
      by_cases h1 : chunk.totalSize < size
      · by_cases h2 : f.contents.length ≤ size - chunk.totalSize
        · have hc2 : recsOfFiles nm (appendChunkFile chunk f).files = [] := by
            rw [show (appendChunkFile chunk f).files = chunk.files ++ [f] from rfl,
              recsOfFiles_append, hc, recsOfFiles_singleton_ne nm f hfnm]
            rfl
          have ih := flushChunkLoop_recs_one nm size data h10 hlen rest
            (appendChunkFile chunk f) hp hc2
          have hloopeq : flushChunkLoop size chunk (f :: rest) =
              flushChunkLoop size (appendChunkFile chunk f) rest := by
            simp only [flushChunkLoop]
            rw [if_pos h1, if_pos h2]
          rw [hloopeq]
          exact ih
        · have hne : f.contents ≠ [] := fun hemp => h2 (by simp [hemp])
          have hloopeq : flushChunkLoop size chunk (f :: rest) =
              ((appendChunkFileSplit chunk f (size - chunk.totalSize)).1,
                (appendChunkFileSplit chunk f (size - chunk.totalSize)).2 :: rest) := by
            simp only [flushChunkLoop]
            rw [if_pos h1, if_neg h2]
          rw [hloopeq]
          rcases appendChunkFileSplit_cases chunk f (size - chunk.totalSize) hne with
            ⟨heq, -⟩ | ⟨k, hk0, hkle, heq⟩
          · rw [heq]
            dsimp only
            left
            refine ⟨hc, ?_⟩
            rw [recsOfFiles_cons, if_neg hfnm, List.nil_append]
            exact hp
          · rw [heq]
            dsimp only
            left
            constructor
            · rw [recsOfFiles_append, hc, List.nil_append]
              exact recsOfFiles_singleton_ne nm _ hfnm
            · rw [recsOfFiles_cons]
              simp only [hfnm, reduceIte, List.nil_append]
              exact hp
      · rw [flushChunkLoop_done size chunk (f :: rest) h1]
        left
        refine ⟨hc, ?_⟩
        rw [recsOfFiles_cons, if_neg hfnm, List.nil_append]
        exact hp

theorem flushChunkLoop_recs_eps (nm : String) (size : Nat) :
    ∀ (pending : List File) (chunk : Chunk),
    recsOfFiles nm pending = [(1, [])] →
    recsOfFiles nm chunk.files = [] →
    (recsOfFiles nm (flushChunkLoop size chunk pending).1.files = [] ∧
      recsOfFiles nm (flushChunkLoop size chunk pending).2 = [(1, [])]) ∨
    (recsOfFiles nm (flushChunkLoop size chunk pending).1.files = [(1, [])] ∧
      recsOfFiles nm (flushChunkLoop size chunk pending).2 = [])
  | [], _, hp, _ => absurd hp (by simp [recsOfFiles])
  | f :: rest, chunk, hp, hc => by
    rw [recsOfFiles_cons] at hp
    by_cases hfnm : f.name = nm
    · rw [if_pos hfnm] at hp
      have hfl : f.startLine = 1 ∧ f.contents = [] ∧ recsOfFiles nm rest = [] := by
        simp only [List.singleton_append, List.cons.injEq, Prod.mk.injEq] at hp
        exact ⟨hp.1.1, hp.1.2, hp.2⟩
      obtain ⟨hsl, hdat, hrest⟩ := hfl
      by_cases h1 : chunk.totalSize < size
      · have h2 : f.contents.length ≤ size - chunk.totalSize := by
          rw [hdat]
          simp
        have hloopeq : flushChunkLoop size chunk (f :: rest) =
            flushChunkLoop size (appendChunkFile chunk f) rest := by
          simp only [flushChunkLoop]
          rw [if_pos h1, if_pos h2]
        rw [hloopeq]
        have hc2 : recsOfFiles nm (appendChunkFile chunk f).files = [(1, [])] := by
          rw [show (appendChunkFile chunk f).files = chunk.files ++ [f] from rfl,
            recsOfFiles_append, hc, List.nil_append, recsOfFiles_singleton_eq nm f hfnm,
            hsl, hdat]
        have hnone := flushChunkLoop_recs_none nm size rest (appendChunkFile chunk f) hrest
        right
        rw [hnone.1, hc2]
        exact ⟨rfl, hnone.2⟩
      · rw [flushChunkLoop_done size chunk (f :: rest) h1]
        left
        refine ⟨hc, ?_⟩
        rw [recsOfFiles_cons, if_pos hfnm, hrest]
        simp [hsl, hdat]
    · rw [if_neg hfnm, List.nil_append] at hp
      by_cases h1 : chunk.totalSize < size
      · by_cases h2 : f.contents.length ≤ size - chunk.totalSize
        · have hc2 : recsOfFiles nm (appendChunkFile chunk f).files = [] := by
            rw [show (appendChunkFile chunk f).files = chunk.files ++ [f] from rfl,
              recsOfFiles_append, hc, recsOfFiles_singleton_ne nm f hfnm]
            rfl
          have ih := flushChunkLoop_recs_eps nm size rest (appendChunkFile chunk f) hp hc2
          have hloopeq : flushChunkLoop size chunk (f :: rest) =
              flushChunkLoop size (appendChunkFile chunk f) rest := by
            simp only [flushChunkLoop]
            rw [if_pos h1, if_pos h2]
          rw [hloopeq]
          exact ih
        · have hne : f.contents ≠ [] := fun hemp => h2 (by simp [hemp])
          have hloopeq : flushChunkLoop size chunk (f :: rest) =
              ((appendChunkFileSplit chunk f (size - chunk.totalSize)).1,
                (appendChunkFileSplit chunk f (size - chunk.totalSize)).2 :: rest) := by
            simp only [flushChunkLoop]
            rw [if_pos h1, if_neg h2]
          rw [hloopeq]
          rcases appendChunkFileSplit_cases chunk f (size - chunk.totalSize) hne with
            ⟨heq, -⟩ | ⟨k, hk0, hkle, heq⟩
          · rw [heq]
            dsimp only
            left
            refine ⟨hc, ?_⟩
            rw [recsOfFiles_cons, if_neg hfnm, List.nil_append]
            exact hp
          · rw [heq]
            dsimp only
            left
            constructor
            · rw [recsOfFiles_append, hc, List.nil_append]
              exact recsOfFiles_singleton_ne nm _ hfnm
            · rw [recsOfFiles_cons]
              simp only [hfnm, reduceIte, List.nil_append]
              exact hp
      · rw [flushChunkLoop_done size chunk (f :: rest) h1]
        left
        refine ⟨hc, ?_⟩
        rw [recsOfFiles_cons, if_neg hfnm, List.nil_append]
        exact hp

theorem fileRecords_flushChunkSize (size : Nat) (st : BuilderState) (nm : String) :
    fileRecords nm (flushChunkSize size st) =
      fileRecords nm st ++
        recsOfFiles nm (flushChunkLoop size ⟨[], 0⟩ st.pendingFiles).1.files := by
  unfold flushChunkSize flushChunkEmit fileRecords
  by_cases hlf : (flushChunkLoop size ⟨[], 0⟩ st.pendingFiles).1.files = []
  · simp [hlf, recsOfFiles]
  · simp [hlf, outChunkFiles, List.append_assoc]

theorem nlShape_flushChunkSize (size : Nat) (nm : String) (data : List Nat)
    (h10 : data.count 10 = 0) (hlen : size < data.length) (st : BuilderState)
    (h : nlShape nm data st) : nlShape nm data (flushChunkSize size st) := by
  have hfr := fileRecords_flushChunkSize size st nm
  have hpr : pendingRecords nm (flushChunkSize size st) =
      recsOfFiles nm (flushChunkLoop size ⟨[], 0⟩ st.pendingFiles).2 := by
    unfold pendingRecords
    rw [flushChunkSize_pendingFiles]
  have h0 : recsOfFiles nm (⟨[], 0⟩ : Chunk).files = [] := rfl
  rcases h with ⟨hf, hp⟩ | ⟨hf, hp⟩ | ⟨hf, hp⟩
  · rcases flushChunkLoop_recs_one nm size data h10 hlen st.pendingFiles ⟨[], 0⟩ hp h0 with
      ⟨hl1, hl2⟩ | ⟨hl1, hl2⟩
    · exact Or.inl ⟨by rw [hfr, hl1, hf]; rfl, by rw [hpr, hl2]⟩
    · exact Or.inr (Or.inl ⟨by rw [hfr, hl1, hf]; rfl, by rw [hpr, hl2]⟩)
  · rcases flushChunkLoop_recs_eps nm size st.pendingFiles ⟨[], 0⟩ hp h0 with
      ⟨hl1, hl2⟩ | ⟨hl1, hl2⟩
    · exact Or.inr (Or.inl ⟨by rw [hfr, hl1, hf]; rfl, by rw [hpr, hl2]⟩)
    · exact Or.inr (Or.inr ⟨by rw [hfr, hl1, hf]; rfl, by rw [hpr, hl2]⟩)
  · have hnone := flushChunkLoop_recs_none nm size st.pendingFiles ⟨[], 0⟩ hp
    exact Or.inr (Or.inr ⟨by rw [hfr, hnone.1, h0, List.append_nil, hf],
      by rw [hpr, hnone.2]⟩)

theorem nlShape_flushIfNeededFuel (C : Nat) (nm : String) (data : List Nat)
    (h10 : data.count 10 = 0) (hlen : C < data.length) :
    ∀ (fuel : Nat) (st : BuilderState),
    nlShape nm data st → nlShape nm data (flushIfNeededFuel C fuel st)
  | 0, _, h => h
  | fuel + 1, st, h => by
    by_cases hc : C * 2 ≤ st.pendingSize
    · rw [flushIfNeededFuel_step C fuel st hc]
      exact nlShape_flushIfNeededFuel C nm data h10 hlen fuel _
        (nlShape_flushChunkSize C nm data h10 hlen st h)
    · rw [flushIfNeededFuel_done C (fuel + 1) st (by omega)]
      exact h

theorem nlShape_flushAllFuel (C : Nat) (nm : String) (data : List Nat)
    (h10 : data.count 10 = 0) (hlen : C < data.length) :
    ∀ (fuel : Nat) (st : BuilderState),
    nlShape nm data st → nlShape nm data (flushAllFuel C fuel st)
  | 0, _, h => h
  | fuel + 1, st, h => by
    by_cases hc : 0 < st.pendingSize
    · rw [flushAllFuel_step C fuel st hc]
      exact nlShape_flushAllFuel C nm data h10 hlen fuel _
        (nlShape_flushChunkSize C nm data h10 hlen st h)
    · rw [flushAllFuel_done C (fuel + 1) st (by omega)]
      exact h

theorem pending_no_name_branch {nm2 : String} {st : BuilderState}
    (hnames : ∀ f ∈ st.pendingFiles, ¬ f.name = nm2) :
    ¬ st.pendingFiles.getLast?.map File.name = some nm2 := by
  intro hcon
  cases hlast : st.pendingFiles.getLast? with
  | none => rw [hlast] at hcon; simp at hcon
  | some b =>
    rw [hlast] at hcon
    simp only [Option.map_some', Option.some.injEq] at hcon
    exact hnames b (List.mem_of_getLast?_eq_some hlast) hcon

theorem nlShape_appendFilePart (C : Nat) (nm : String) (data : List Nat)
    (h10 : data.count 10 = 0) (hlen : C < data.length)
    (nm2 : String) (data2 : List Nat) (t2 s2 : Nat) (st : BuilderState)
    (hne : ¬ nm2 = nm) (habs2 : combinedRecords nm2 st = [])
    (h : nlShape nm data st) :
    nlShape nm data (appendFilePart C nm2 0 data2 t2 s2 st) := by
  obtain ⟨-, hpr2⟩ := combinedRecords_eq_nil_parts habs2
  have hnames : ∀ f ∈ st.pendingFiles, ¬ f.name = nm2 := by
    have h2 : recsOfFiles nm2 st.pendingFiles = [] := hpr2
    exact (recsOfFiles_eq_nil nm2 _).mp h2
  unfold appendFilePart flushIfNeeded
  rw [if_neg (pending_no_name_branch hnames)]
  apply nlShape_flushIfNeededFuel C nm data h10 hlen
  have hfr1 : fileRecords nm ⟨st.pendingFiles ++ [⟨nm2, data2, 0, s2, t2⟩],
      st.pendingSize + data2.length, st.out⟩ = fileRecords nm st := rfl
  have hkeep : pendingRecords nm ⟨st.pendingFiles ++ [⟨nm2, data2, 0, s2, t2⟩],
      st.pendingSize + data2.length, st.out⟩ = pendingRecords nm st := by
    unfold pendingRecords
    rw [recsOfFiles_append, recsOfFiles_singleton_ne nm _ hne, List.append_nil]
  unfold nlShape at h ⊢
  rw [hfr1, hkeep]
  exact h

theorem nlShape_appendFilePart_self (C : Nat) (nm : String) (data : List Nat)
    (h10 : data.count 10 = 0) (hlen : C < data.length) (t s : Nat) (st : BuilderState)
    (habs : combinedRecords nm st = []) :
    nlShape nm data (appendFilePart C nm 0 data t s st) := by
  obtain ⟨hfr0, hpr0⟩ := combinedRecords_eq_nil_parts habs
  have hnames : ∀ f ∈ st.pendingFiles, ¬ f.name = nm := by
    have h2 : recsOfFiles nm st.pendingFiles = [] := hpr0
    exact (recsOfFiles_eq_nil nm _).mp h2
  unfold appendFilePart flushIfNeeded
  rw [if_neg (pending_no_name_branch hnames)]
  apply nlShape_flushIfNeededFuel C nm data h10 hlen
  unfold nlShape
  left
  constructor
  · exact hfr0
  · show recsOfFiles nm (st.pendingFiles ++ [⟨nm, data, 0, s, t⟩]) = [(0, data)]
    rw [recsOfFiles_append, show recsOfFiles nm st.pendingFiles = [] from hpr0,
      List.nil_append, recsOfFiles_singleton_eq nm _ rfl]

theorem foldl_good_absent (C : Nat) : ∀ (inputs : List InputFile) (st : BuilderState),
    goodState st → (inputs.map InputFile.name).Nodup →
    (∀ inp ∈ inputs, combinedRecords inp.name st = []) →
    goodState (inputs.foldl (fun s f => appendFileBytes C f s) st) ∧
    ∀ nm2, nm2 ∉ inputs.map InputFile.name → combinedRecords nm2 st = [] →
      combinedRecords nm2 (inputs.foldl (fun s f => appendFileBytes C f s) st) = []
  | [], st, h, _, _ => ⟨h, fun _ _ h2 => h2⟩
  | inp :: rest, st, h, hnd, habs => by
    rw [List.map_cons, List.nodup_cons] at hnd
    have hstep := appendFilePart_good_absent C inp.name (normalizeEOL inp.raw)
      inp.lastWriteTime inp.fileSize st h (habs inp (by simp))
    rw [List.foldl_cons]
    have hrec := foldl_good_absent C rest (appendFileBytes C inp st) hstep.1 hnd.2
      (fun f hf => hstep.2 f.name
        (fun hcon => hnd.1 (hcon ▸ List.mem_map.mpr ⟨f, hf, rfl⟩)) (habs f (by simp [hf])))
    refine ⟨hrec.1, ?_⟩
    intro nm2 hnm2 h2
    have hne : ¬ nm2 = inp.name := by
      intro hcon
      exact hnm2 (by simp [hcon])
    exact hrec.2 nm2 (fun hcon => hnm2 (by simp [hcon])) (hstep.2 nm2 hne h2)

theorem nlShape_fold (C : Nat) (nm : String) (data : List Nat)
    (h10 : data.count 10 = 0) (hlen : C < data.length) :
    ∀ (inputs : List InputFile) (st : BuilderState),
    goodState st → (inputs.map InputFile.name).Nodup →
    (∀ inp ∈ inputs, combinedRecords inp.name st = []) →
    (∀ inp ∈ inputs, ¬ inp.name = nm) →
    nlShape nm data st →
    nlShape nm data (inputs.foldl (fun s f => appendFileBytes C f s) st)
  | [], _, _, _, _, _, h => h
  | inp :: rest, st, hg, hnd, habs, hnm, h => by
    rw [List.map_cons, List.nodup_cons] at hnd
    have hstep := appendFilePart_good_absent C inp.name (normalizeEOL inp.raw)
      inp.lastWriteTime inp.fileSize st hg (habs inp (by simp))
    have hsh : nlShape nm data (appendFileBytes C inp st) :=
      nlShape_appendFilePart C nm data h10 hlen inp.name (normalizeEOL inp.raw)
        inp.lastWriteTime inp.fileSize st (hnm inp (by simp)) (habs inp (by simp)) h
    rw [List.foldl_cons]
    exact nlShape_fold C nm data h10 hlen rest _ hstep.1 hnd.2
      (fun f hf => hstep.2 f.name
        (fun hcon => hnd.1 (hcon ▸ List.mem_map.mpr ⟨f, hf, rfl⟩)) (habs f (by simp [hf])))
      (fun f hf => hnm f (by simp [hf])) hsh

theorem pendingRecords_mem {nm : String} {st : BuilderState} {r : Nat × List Nat}
    (h : r ∈ pendingRecords nm st) : ∃ f ∈ st.pendingFiles, f.contents = r.2 := by
  unfold pendingRecords recsOfFiles at h
  obtain ⟨f, hf, hfr⟩ := List.mem_map.mp h
  exact ⟨f, (List.mem_filter.mp hf).1, by rw [← hfr]⟩

/-- C2 amended: for every chunk target `C > 0` and every build over distinctly
named inputs, an input file whose normalized content is one newline-free line
longer than `C` has its whole content placed in exactly **one** written chunk,
as the single record `(0, content)` — possibly followed in a later chunk by an
empty continuation record `(1, [])` carrying no content bytes.  The containing
chunk's payload for this file is the whole file length, which may exceed `C`
and also `2·C`, so no `≤ 2·C` bound holds (the counterexample realizes
`2·C + 1`). -/
theorem C2_amended (C : Nat) (hC : 0 < C) (inputs : List InputFile)
    (hnd : (inputs.map InputFile.name).Nodup) (inp : InputFile) (hmem : inp ∈ inputs)
    (h10 : (normalizeEOL inp.raw).count 10 = 0)
    (hlen : C < (normalizeEOL inp.raw).length) :
    fileRecords inp.name (buildStore C inputs) = [(0, normalizeEOL inp.raw)] ∨
    fileRecords inp.name (buildStore C inputs) =
      [(0, normalizeEOL inp.raw), (1, [])] := by
  obtain ⟨pre, post, rfl⟩ := List.append_of_mem hmem
  have hnd2 := hnd
  rw [List.map_append, List.map_cons, List.nodup_append] at hnd2
  obtain ⟨hndpre, hndrest, hdisj⟩ := hnd2
  rw [List.nodup_cons] at hndrest
  obtain ⟨hinpnotpost, hndpost⟩ := hndrest
  have hfold1 := foldl_good_absent C pre initialState initialState_good hndpre
    (fun f _ => by
      simp [combinedRecords, fileRecords, pendingRecords, recsOfFiles, initialState])
  set st1 := pre.foldl (fun s f => appendFileBytes C f s) initialState with hst1
  have habs1 : ∀ nm2, nm2 ∉ pre.map InputFile.name → combinedRecords nm2 st1 = [] :=
    fun nm2 h2 => hfold1.2 nm2 h2 (by
      simp [combinedRecords, fileRecords, pendingRecords, recsOfFiles, initialState])
  have hinp_notpre : inp.name ∉ pre.map InputFile.name := by
    intro hcon
    exact hdisj hcon (by simp)
  have hpost_notpre : ∀ f ∈ post, f.name ∉ pre.map InputFile.name := by
    intro f hf hcon
    exact hdisj hcon (List.mem_cons.mpr (Or.inr (List.mem_map.mpr ⟨f, hf, rfl⟩)))
  have habs_inp : combinedRecords inp.name st1 = [] := habs1 inp.name hinp_notpre
  have hstep := appendFilePart_good_absent C inp.name (normalizeEOL inp.raw)
    inp.lastWriteTime inp.fileSize st1 hfold1.1 habs_inp
  have hshape2 : nlShape inp.name (normalizeEOL inp.raw) (appendFileBytes C inp st1) :=
    nlShape_appendFilePart_self C inp.name (normalizeEOL inp.raw) h10 hlen
      inp.lastWriteTime inp.fileSize st1 habs_inp
  have habs_post : ∀ f ∈ post, combinedRecords f.name (appendFileBytes C inp st1) = [] := by
    intro f hf
    refine hstep.2 f.name ?_ (habs1 f.name (hpost_notpre f hf))
    intro hcon
    exact hinpnotpost (hcon ▸ List.mem_map.mpr ⟨f, hf, rfl⟩)
  have hpost_ne : ∀ f ∈ post, ¬ f.name = inp.name := by
    intro f hf hcon
    exact hinpnotpost (hcon ▸ List.mem_map.mpr ⟨f, hf, rfl⟩)
  have hshape3 : nlShape inp.name (normalizeEOL inp.raw)
      (post.foldl (fun s f => appendFileBytes C f s) (appendFileBytes C inp st1)) :=
    nlShape_fold C inp.name (normalizeEOL inp.raw) h10 hlen post _ hstep.1 hndpost
      habs_post hpost_ne hshape2
  have hshape4 : nlShape inp.name (normalizeEOL inp.raw)
      (buildStore C (pre ++ inp :: post)) := by
    unfold buildStore flushAll
    rw [List.foldl_append, List.foldl_cons]
    exact nlShape_flushAllFuel C inp.name (normalizeEOL inp.raw) h10 hlen _ _ hshape3
  have hempty := buildStore_pending_empty C hC (pre ++ inp :: post)
  rcases hshape4 with ⟨hf, hp⟩ | ⟨hf, hp⟩ | ⟨hf, hp⟩
  · exfalso
    have hr : (0, normalizeEOL inp.raw) ∈
        pendingRecords inp.name (buildStore C (pre ++ inp :: post)) := by
      rw [hp]
      simp
    obtain ⟨f, hfmem, hfc⟩ := pendingRecords_mem hr
    have hfc2 : f.contents = normalizeEOL inp.raw := hfc
    rw [hempty f hfmem] at hfc2
    rw [← hfc2] at hlen
    simp at hlen
  · exact Or.inl hf
  · exact Or.inr hf

/-- Witness for `C2_amended`: `C = 2`, a two-file build where `"a"` is the
newline-free 3-byte line `aaa`; its content lands whole in the first chunk,
with the empty continuation record written into the second chunk. -/
theorem C2_amended_witness :
    fileRecords "a" (buildStore 2 [⟨"a", [97, 97, 97], 0, 3⟩, ⟨"b", [98, 10], 0, 2⟩]) =
        [(0, [97, 97, 97])] ∨
      fileRecords "a" (buildStore 2 [⟨"a", [97, 97, 97], 0, 3⟩, ⟨"b", [98, 10], 0, 2⟩]) =
        [(0, [97, 97, 97]), (1, [])] :=
  C2_amended 2 (by decide) [⟨"a", [97, 97, 97], 0, 3⟩, ⟨"b", [98, 10], 0, 2⟩] (by decide)
    ⟨"a", [97, 97, 97], 0, 3⟩ (by decide) (by decide) (by decide)

end Qgrep
